import Mathlib

/-!
Verification of the dependency-graph / topological-sort engine of the
fast-autoregressive sampler (`pyket/samplers/fast_autoregressive/data_structures.py`).

The Python class `DependencyGraph` stores, per layer, dense numpy arrays of
outgoing-edge tables, degree counters and DFS work-status, plus two flat arrays
used as an explicit work stack.  We embed the state as a structure whose array
fields are total functions `Nat → _` (a numpy array of length `n` is modelled by
a function; cells at indices `≥ n` are phantom cells that the code never reads).
Machine integers (numpy `int32`) are modelled as `Int` where the code relies on
the sentinel `-1` or on decrements possibly crossing zero, and as `Nat` for the
monotonically non-negative counters.
-/

namespace Pyket

/-- Sentinel value used by the Python code for "no edge" entries (`NONE_INT_VALUE = -1`). -/
def NONE_INT_VALUE : Int := -1

/-! ### Flat spatial index: mixed-radix encode (`_get_spatial_index`) and
decode (`_spatial_index_to_location`) -/

/-- Loop body of `_get_spatial_index`: iterates over
`zip(shape[::-1][:-1], location[::-1][1:])`, carrying `prev_dim_factor` and the
accumulated result; `zip` truncates at the shorter list. -/
def get_spatial_index_loop : List Nat → List Nat → Nat → Nat → Nat
  | prev_dim_size :: dims, dim_location :: locs, prev_dim_factor, res =>
      get_spatial_index_loop dims locs (prev_dim_factor * prev_dim_size)
        (res + dim_location * (prev_dim_factor * prev_dim_size))
  | _, _, _, res => res

/-- Translation of `DependencyGraph._get_spatial_index` applied to a spatial
location within a layer of the given spatial shape.  `location[-1]` on an empty
location raises in Python; locations have rank ≥ 1 in every use, and the `[]`
branch returns a junk value outside that contract. -/
def get_spatial_index (shape spatial_location : List Nat) : Nat :=
  match spatial_location.reverse with
  | [] => 0
  | last :: rest => get_spatial_index_loop shape.reverse.dropLast rest 1 last

/-- Loop body of `_spatial_index_to_location`: repeated divmod over the reversed
shape, collecting the remainders. -/
def spatial_index_to_location_loop : List Nat → Nat → List Nat
  | [], _ => []
  | dim_size :: dims, spatial_index =>
      (spatial_index % dim_size) :: spatial_index_to_location_loop dims (spatial_index / dim_size)

/-- Translation of `DependencyGraph._spatial_index_to_location` for a layer of
the given spatial shape. -/
def spatial_index_to_location (shape : List Nat) (spatial_index : Nat) : List Nat :=
  (spatial_index_to_location_loop shape.reverse spatial_index).reverse

/-- Little-endian mixed-radix value of digits `ls` in radices `ds`
(both given least-significant first, i.e. over the reversed shape). -/
def mixed_radix_val : List Nat → List Nat → Nat
  | d :: ds, l :: ls => l + d * mixed_radix_val ds ls
  | _, _ => 0

/-- Helper capturing the sum accumulated by `get_spatial_index_loop`. -/
def horner_shift : List Nat → List Nat → Nat
  | d :: ds, l :: ls => d * (l + horner_shift ds ls)
  | _, _ => 0

lemma get_spatial_index_loop_eq (ds : List Nat) : ∀ (ls : List Nat) (f res : Nat),
    get_spatial_index_loop ds ls f res = res + f * horner_shift ds ls := by
  induction ds with
  | nil => intro ls f res; cases ls <;> simp [get_spatial_index_loop, horner_shift]
  | cons d ds ih =>
    intro ls f res
    cases ls with
    | nil => simp [get_spatial_index_loop, horner_shift]
    | cons l ls =>
      rw [get_spatial_index_loop, ih, horner_shift]
      ring

lemma horner_shift_eq_val (ds : List Nat) : ∀ (ls : List Nat) (l dlast : Nat),
    ds.length = ls.length →
    l + horner_shift ds ls = mixed_radix_val (ds ++ [dlast]) (l :: ls) := by
  induction ds with
  | nil =>
    intro ls l dlast h
    cases ls with
    | nil => simp [horner_shift, mixed_radix_val]
    | cons a as => simp at h
  | cons d ds ih =>
    intro ls l dlast h
    cases ls with
    | nil => simp at h
    | cons l2 ls =>
      simp only [List.length_cons, Nat.add_right_cancel_iff] at h
      rw [horner_shift, List.cons_append, mixed_radix_val, ← ih ls l2 dlast h]

lemma get_spatial_index_eq_val (shape loc : List Nat)
    (hlen : loc.length = shape.length) (hne : shape ≠ []) :
    get_spatial_index shape loc = mixed_radix_val shape.reverse loc.reverse := by
  obtain ⟨d0, srest, rfl⟩ : ∃ d0 srest, shape = d0 :: srest := by
    cases shape with
    | nil => exact absurd rfl hne
    | cons a b => exact ⟨a, b, rfl⟩
  have hlocne : loc ≠ [] := by
    intro h
    rw [h] at hlen
    simp at hlen
  obtain ⟨l, lrev, hl⟩ : ∃ l lrev, loc.reverse = l :: lrev := by
    cases hrev : loc.reverse with
    | nil => exact absurd (by simpa using congrArg List.reverse hrev) hlocne
    | cons a b => exact ⟨a, b, rfl⟩
  have hdrop : (d0 :: srest).reverse.dropLast = srest.reverse := by
    rw [List.reverse_cons, List.dropLast_concat]
  have hlenr : srest.reverse.length = lrev.length := by
    have h1 : loc.reverse.length = srest.length + 1 := by
      rw [List.length_reverse, hlen]; simp
    rw [hl] at h1
    simp at h1
    simp [h1]
  rw [get_spatial_index, hl]
  show get_spatial_index_loop (d0 :: srest).reverse.dropLast lrev 1 l = _
  rw [hdrop, get_spatial_index_loop_eq, one_mul,
    horner_shift_eq_val srest.reverse lrev l d0 hlenr, List.reverse_cons]

lemma spatial_index_to_location_loop_val (ds ls : List Nat)
    (h : List.Forall₂ (· < ·) ls ds) :
    spatial_index_to_location_loop ds (mixed_radix_val ds ls) = ls := by
  induction h with
  | nil => rfl
  | @cons l d ls ds hlt _ ih =>
    have hd : 0 < d := by omega
    rw [mixed_radix_val, spatial_index_to_location_loop]
    congr 1
    · rw [Nat.add_mul_mod_self_left, Nat.mod_eq_of_lt hlt]
    · rw [Nat.add_mul_div_left _ _ hd, Nat.div_eq_of_lt hlt, Nat.zero_add, ih]

lemma mixed_radix_val_lt (ds ls : List Nat) (h : List.Forall₂ (· < ·) ls ds) :
    mixed_radix_val ds ls < ds.prod := by
  induction h with
  | nil => simp [mixed_radix_val]
  | @cons l d ls ds hlt hf ih =>
    rw [mixed_radix_val, List.prod_cons]
    calc l + d * mixed_radix_val ds ls < d + d * mixed_radix_val ds ls := by omega
    _ = d * (mixed_radix_val ds ls + 1) := by ring
    _ ≤ d * ds.prod := Nat.mul_le_mul_left d (Nat.succ_le_of_lt ih)

lemma spatial_index_to_location_loop_length (ds : List Nat) : ∀ i : Nat,
    (spatial_index_to_location_loop ds i).length = ds.length := by
  induction ds with
  | nil => intro i; rfl
  | cons d ds ih => intro i; simp [spatial_index_to_location_loop, ih]

lemma mixed_radix_val_loop (ds : List Nat) : ∀ i : Nat, i < ds.prod →
    mixed_radix_val ds (spatial_index_to_location_loop ds i) = i ∧
      List.Forall₂ (· < ·) (spatial_index_to_location_loop ds i) ds := by
  induction ds with
  | nil =>
    intro i hi
    simp only [List.prod_nil, Nat.lt_one_iff] at hi
    subst hi
    exact ⟨rfl, List.Forall₂.nil⟩
  | cons d ds ih =>
    intro i hi
    rw [List.prod_cons] at hi
    have hd : 0 < d := by
      rcases Nat.eq_zero_or_pos d with h | h
      · rw [h] at hi; omega
      · exact h
    have hdiv : i / d < ds.prod := by
      rw [Nat.div_lt_iff_lt_mul hd, Nat.mul_comm]
      exact hi
    obtain ⟨ih1, ih2⟩ := ih (i / d) hdiv
    constructor
    · rw [spatial_index_to_location_loop, mixed_radix_val, ih1, Nat.mod_add_div]
    · exact List.Forall₂.cons (Nat.mod_lt _ hd) ih2

/-- Encoding a location within bounds lands in `[0, S)` where `S` is the
product of the layer's spatial shape. -/
lemma get_spatial_index_lt (shape loc : List Nat)
    (h : List.Forall₂ (· < ·) loc shape) (hne : shape ≠ []) :
    get_spatial_index shape loc < shape.prod := by
  rw [get_spatial_index_eq_val shape loc h.length_eq hne, ← List.prod_reverse]
  exact mixed_radix_val_lt _ _ (List.forall₂_reverse_iff.mpr h)

/-- Decode is a left inverse of encode on in-bounds locations. -/
lemma spatial_index_to_location_get (shape loc : List Nat)
    (h : List.Forall₂ (· < ·) loc shape) (hne : shape ≠ []) :
    spatial_index_to_location shape (get_spatial_index shape loc) = loc := by
  rw [spatial_index_to_location, get_spatial_index_eq_val shape loc h.length_eq hne,
    spatial_index_to_location_loop_val _ _ (List.forall₂_reverse_iff.mpr h),
    List.reverse_reverse]

/-- Decode of an index `< S` is within bounds. -/
lemma spatial_index_to_location_forall₂ (shape : List Nat) (i : Nat) (hi : i < shape.prod) :
    List.Forall₂ (· < ·) (spatial_index_to_location shape i) shape := by
  have hi' : i < shape.reverse.prod := by rwa [List.prod_reverse]
  have h2 := (mixed_radix_val_loop shape.reverse i hi').2
  rw [spatial_index_to_location]
  have := List.forall₂_reverse_iff.mpr h2
  simpa using this

/-- Encode is a left inverse of decode on `[0, S)`. -/
lemma get_spatial_index_to_location (shape : List Nat) (i : Nat)
    (hi : i < shape.prod) (hne : shape ≠ []) :
    get_spatial_index shape (spatial_index_to_location shape i) = i := by
  have hi' : i < shape.reverse.prod := by rwa [List.prod_reverse]
  obtain ⟨h1, h2⟩ := mixed_radix_val_loop shape.reverse i hi'
  have hlen : (spatial_index_to_location shape i).length = shape.length := by
    rw [spatial_index_to_location, List.length_reverse,
      spatial_index_to_location_loop_length, List.length_reverse]
  rw [get_spatial_index_eq_val _ _ hlen hne, spatial_index_to_location,
    List.reverse_reverse, h1]

/-! ### The dependency graph state -/

/-- A network layer as the graph sees it: its declared `output_shape` (including
the leading batch dimension) and whether it is a keras `InputLayer`.  Layer
*identity* is positional: the Python code keys its per-layer dicts on distinct
layer objects and maps them to their index in `keras_model.layers`, so we index
layers by that integer directly. -/
structure Layer where
  output_shape : List Nat
  is_input : Bool

/-- Spatial shape recorded for a layer by `_create_layer_vertices`:
`output_shape[1:-1]`, after appending a trailing `1` for an `InputLayer`
("we assume the last dim is channels dim in every layer"). -/
def layer_spatial_shape (layer : Layer) : List Nat :=
  let output_shape := if layer.is_input then layer.output_shape ++ [1] else layer.output_shape
  (output_shape.drop 1).dropLast

/-- A vertex as handed to `add_edge` and emitted by `topological_sort`:
a (layer index, spatial location) pair (Python's `GraphNode`). -/
abbrev Vertex := Nat × List Nat

/-- A vertex in the compact internal representation:
(layer index, flat spatial index). -/
abbrev IdxVertex := Nat × Nat

/-- Point update of a one-dimensional array modelled as a function. -/
def upd1 {α : Type} (f : Nat → α) (i : Nat) (v : α) : Nat → α :=
  fun a => if a = i then v else f a

/-- Point update of a per-layer one-dimensional array family. -/
def upd2 {α : Type} (f : Nat → Nat → α) (i j : Nat) (v : α) : Nat → Nat → α :=
  fun a b => if a = i ∧ b = j then v else f a b

/-- Point update of a per-layer two-dimensional table family. -/
def upd3 {α : Type} (f : Nat → Nat → Nat → α) (i j k : Nat) (v : α) : Nat → Nat → Nat → α :=
  fun a b c => if a = i ∧ b = j ∧ c = k then v else f a b c

/-- State of Python's `DependencyGraph` object.  The per-layer dicts keyed by
layer object become families indexed by layer index; each numpy array of length
`n` (or `n × cap`) becomes a total function whose cells beyond the allocated
extent are phantom (never read by the code).  `outCap` records the allocated
width (`.shape[-1]`) of the two outgoing-edge tables of each layer. -/
structure DependencyGraph where
  layersShape : List (List Nat)
  outSpatial : Nat → Nat → Nat → Int
  outLayer : Nat → Nat → Nat → Int
  outCap : Nat → Nat
  outCount : Nat → Nat → Nat
  inCount : Nat → Nat → Nat
  dfsStatus : Nat → Nat → Int
  queueSpatial : Nat → Int
  queueLayer : Nat → Int
  queueLen : Nat
  verticesCounter : Nat

/-- Translation of `_create_vertices` (folding in `_create_layer_vertices`):
per-layer tables of width `default_max_number_of_outgoing_edges` filled with the
sentinel, zeroed counters and status, queue arrays of length `verticesCounter`
filled with the sentinel (phantom beyond that length), `queue_len = 0`. -/
def create_vertices (default_max_number_of_outgoing_edges : Nat)
    (layers : List Layer) : DependencyGraph where
  layersShape := layers.map layer_spatial_shape
  outSpatial := fun _ _ _ => NONE_INT_VALUE
  outLayer := fun _ _ _ => NONE_INT_VALUE
  outCap := fun _ => default_max_number_of_outgoing_edges
  outCount := fun _ _ => 0
  inCount := fun _ _ => 0
  dfsStatus := fun _ _ => 0
  queueSpatial := fun _ => NONE_INT_VALUE
  queueLayer := fun _ => NONE_INT_VALUE
  queueLen := 0
  verticesCounter := (layers.map (fun layer => (layer_spatial_shape layer).prod)).sum

/-- Translation of `_increase_layer_num_of_edges`: reallocate both outgoing
tables of `layer` at twice their width, copy columns `[0, cap)` of every row,
sentinel-fill the rest. -/
def increase_layer_num_of_edges (g : DependencyGraph) (layer : Nat) : DependencyGraph :=
  let cap := g.outCap layer
  { g with
    outSpatial := fun l s j =>
      if l = layer then (if j < cap then g.outSpatial l s j else NONE_INT_VALUE)
      else g.outSpatial l s j
    outLayer := fun l s j =>
      if l = layer then (if j < cap then g.outLayer l s j else NONE_INT_VALUE)
      else g.outLayer l s j
    outCap := upd1 g.outCap layer (cap * 2) }

/-- Translation of `add_edge(from_vertex, to_vertex)`.  `_get_layer_index` is
the dict lookup `layer ↦ layer index`, which in our positional encoding is the
identity on the vertex's first component. -/
def add_edge (g : DependencyGraph) (from_vertex to_vertex : Vertex) : DependencyGraph :=
  let to_vertex_spatial_index := get_spatial_index (g.layersShape.getD to_vertex.1 []) to_vertex.2
  let to_vertex_layer_index := to_vertex.1
  let from_vertex_spatial_index := get_spatial_index (g.layersShape.getD from_vertex.1 []) from_vertex.2
  let edge_index := g.outCount from_vertex.1 from_vertex_spatial_index
  let g1 := { g with
    outCount := upd2 g.outCount from_vertex.1 from_vertex_spatial_index (edge_index + 1)
    inCount := upd2 g.inCount to_vertex.1 to_vertex_spatial_index
      (g.inCount to_vertex.1 to_vertex_spatial_index + 1) }
  let g2 := if g1.outCap from_vertex.1 ≤ edge_index
    then increase_layer_num_of_edges g1 from_vertex.1 else g1
  { g2 with
    outSpatial := upd3 g2.outSpatial from_vertex.1 from_vertex_spatial_index edge_index
      (Int.ofNat to_vertex_spatial_index)
    outLayer := upd3 g2.outLayer from_vertex.1 from_vertex_spatial_index edge_index
      (Int.ofNat to_vertex_layer_index) }

/-- A graph populated from a network description by a sequence of `add_edge`
calls, as the sampler does. -/
def build_graph (default_max_number_of_outgoing_edges : Nat) (layers : List Layer)
    (es : List (Vertex × Vertex)) : DependencyGraph :=
  es.foldl (fun g e => add_edge g e.1 e.2) (create_vertices default_max_number_of_outgoing_edges layers)

/-! ### Topological sort -/

/-- Push a vertex onto the explicit work stack (the three statements the Python
code inlines at both push sites). -/
def push_vertex (g : DependencyGraph) (layer_index spatial_index : Nat) : DependencyGraph :=
  { g with
    queueLayer := upd1 g.queueLayer g.queueLen (Int.ofNat layer_index)
    queueSpatial := upd1 g.queueSpatial g.queueLen (Int.ofNat spatial_index)
    queueLen := g.queueLen + 1 }

/-- Translation of `_reset_dfs_status`: clear the stack and copy every layer's
incoming-edge counters into its DFS work-status array. -/
def reset_dfs_status (g : DependencyGraph) : DependencyGraph :=
  { g with
    queueLen := 0
    dfsStatus := fun l s => (g.inCount l s : Int) }

/-- Translation of `_add_vertices_with_zero_incoming_degree_to_queue`: iterate
layers in insertion order, spatial indices in ascending order, and push each
vertex whose work-status is zero.  The spatial extent of a layer's status array
is the product of its recorded spatial shape. -/
def add_vertices_with_zero_incoming_degree_to_queue (g : DependencyGraph) : DependencyGraph :=
  (List.range g.layersShape.length).foldl (fun g1 layer_index =>
    (List.range ((g1.layersShape.getD layer_index []).prod)).foldl (fun g2 i =>
      if g2.dfsStatus layer_index i = 0 then push_vertex g2 layer_index i else g2) g1) g

/-- One iteration of the inner loop of
`_decrease_incoming_edge_counter_from_node_neighbors`: decrement the
destination's work-status and push it when the status reaches exactly zero.
The stored table entries are non-negative for every edge actually recorded, so
the `Int.toNat` casts mirror numpy's integer indexing on the values the loop
reads. -/
def touch_neighbor (g : DependencyGraph) (to_layer_index to_spatial_index : Nat) : DependencyGraph :=
  let g1 := { g with
    dfsStatus := upd2 g.dfsStatus to_layer_index to_spatial_index
      (g.dfsStatus to_layer_index to_spatial_index - 1) }
  if g1.dfsStatus to_layer_index to_spatial_index = 0
    then push_vertex g1 to_layer_index to_spatial_index else g1

/-- Translation of `_decrease_incoming_edge_counter_from_node_neighbors`. -/
def decrease_incoming_edge_counter_from_node_neighbors (g : DependencyGraph)
    (layer_index spatial_index : Nat) : DependencyGraph :=
  (List.range (g.outCount layer_index spatial_index)).foldl (fun g1 i =>
    touch_neighbor g1 (g1.outLayer layer_index spatial_index i).toNat
      (g1.outSpatial layer_index spatial_index i).toNat) g

/-- One iteration of the `while self._queue_len > 0` loop of
`topological_sort`: read the top of the stack, append the decoded unit to the
results, pop, and process the popped unit's outgoing edges.
`visited_nodes_counter` always equals `len(results)` and is not tracked
separately. -/
def drain_step (g : DependencyGraph) (results : List Vertex) :
    DependencyGraph × List Vertex :=
  let layer_index := (g.queueLayer (g.queueLen - 1)).toNat
  let spatial_index := (g.queueSpatial (g.queueLen - 1)).toNat
  let spatial_location := spatial_index_to_location (g.layersShape.getD layer_index []) spatial_index
  let results := results ++ [(layer_index, spatial_location)]
  let g1 := { g with queueLen := g.queueLen - 1 }
  (decrease_incoming_edge_counter_from_node_neighbors g1 layer_index spatial_index, results)

/-- The `while` loop of `topological_sort`, run with explicit fuel.  For every
graph populated through `add_edge` the loop performs at most `verticesCounter`
iterations (each vertex is pushed at most once — proved below), so running it
with that much fuel is exact. -/
def drain_loop : Nat → DependencyGraph → List Vertex → DependencyGraph × List Vertex
  | 0, g, results => (g, results)
  | fuel + 1, g, results =>
    if g.queueLen = 0 then (g, results)
    else
      let p := drain_step g results
      drain_loop fuel p.1 p.2

/-- Body of `topological_sort` up to (not including) the cycle check: reset,
seed, drain. -/
def topological_sort_core (g : DependencyGraph) : DependencyGraph × List Vertex :=
  let g1 := reset_dfs_status g
  let g2 := add_vertices_with_zero_incoming_degree_to_queue g1
  drain_loop g.verticesCounter g2 []

/-- Message of the exception raised on the cycle check. -/
def cycle_error_message : String :=
  "Dependency graph has cycle, invalid autoregressive model"

/-- Translation of `topological_sort`: returns the emitted sequence, or raises
when fewer units were emitted than exist; the mutated object state is returned
alongside. -/
def topological_sort (g : DependencyGraph) :
    Except String (List Vertex) × DependencyGraph :=
  let p := topological_sort_core g
  (if p.2.length ≠ g.verticesCounter then Except.error cycle_error_message
   else Except.ok p.2, p.1)

/-! ### Basic facts about point updates and `add_edge`'s effect on each field -/

lemma upd1_self {α : Type} (f : Nat → α) (i : Nat) (v : α) : upd1 f i v i = v := by
  simp [upd1]

lemma upd1_ne {α : Type} (f : Nat → α) (i : Nat) (v : α) (a : Nat) (h : a ≠ i) :
    upd1 f i v a = f a := by
  simp [upd1, h]

lemma upd2_self {α : Type} (f : Nat → Nat → α) (i j : Nat) (v : α) : upd2 f i j v i j = v := by
  simp [upd2]

lemma upd2_ne {α : Type} (f : Nat → Nat → α) (i j : Nat) (v : α) (a b : Nat)
    (h : ¬(a = i ∧ b = j)) : upd2 f i j v a b = f a b := by
  simp only [upd2, if_neg h]

lemma upd3_self {α : Type} (f : Nat → Nat → Nat → α) (i j k : Nat) (v : α) :
    upd3 f i j k v i j k = v := by
  simp [upd3]

lemma upd3_ne {α : Type} (f : Nat → Nat → Nat → α) (i j k : Nat) (v : α) (a b c : Nat)
    (h : ¬(a = i ∧ b = j ∧ c = k)) : upd3 f i j k v a b c = f a b c := by
  simp only [upd3, if_neg h]

lemma add_edge_layersShape (g : DependencyGraph) (u v : Vertex) :
    (add_edge g u v).layersShape = g.layersShape := by
  simp only [add_edge, increase_layer_num_of_edges]
  split <;> rfl

lemma add_edge_verticesCounter (g : DependencyGraph) (u v : Vertex) :
    (add_edge g u v).verticesCounter = g.verticesCounter := by
  simp only [add_edge, increase_layer_num_of_edges]
  split <;> rfl

lemma add_edge_outCount (g : DependencyGraph) (u v : Vertex) :
    (add_edge g u v).outCount =
      upd2 g.outCount u.1 (get_spatial_index (g.layersShape.getD u.1 []) u.2)
        (g.outCount u.1 (get_spatial_index (g.layersShape.getD u.1 []) u.2) + 1) := by
  simp only [add_edge, increase_layer_num_of_edges]
  split <;> rfl

lemma add_edge_inCount (g : DependencyGraph) (u v : Vertex) :
    (add_edge g u v).inCount =
      upd2 g.inCount v.1 (get_spatial_index (g.layersShape.getD v.1 []) v.2)
        (g.inCount v.1 (get_spatial_index (g.layersShape.getD v.1 []) v.2) + 1) := by
  simp only [add_edge, increase_layer_num_of_edges]
  split <;> rfl

lemma add_edge_outCap (g : DependencyGraph) (u v : Vertex) :
    (add_edge g u v).outCap =
      if g.outCap u.1 ≤ g.outCount u.1 (get_spatial_index (g.layersShape.getD u.1 []) u.2)
      then upd1 g.outCap u.1 (g.outCap u.1 * 2) else g.outCap := by
  simp only [add_edge, increase_layer_num_of_edges]
  split <;> rfl

lemma add_edge_dfsStatus (g : DependencyGraph) (u v : Vertex) :
    (add_edge g u v).dfsStatus = g.dfsStatus := by
  simp only [add_edge, increase_layer_num_of_edges]
  split <;> rfl

lemma add_edge_queueLen (g : DependencyGraph) (u v : Vertex) :
    (add_edge g u v).queueLen = g.queueLen := by
  simp only [add_edge, increase_layer_num_of_edges]
  split <;> rfl

lemma add_edge_outSpatial_nogrow (g : DependencyGraph) (u v : Vertex)
    (h : ¬ g.outCap u.1 ≤ g.outCount u.1 (get_spatial_index (g.layersShape.getD u.1 []) u.2)) :
    (add_edge g u v).outSpatial =
      upd3 g.outSpatial u.1 (get_spatial_index (g.layersShape.getD u.1 []) u.2)
        (g.outCount u.1 (get_spatial_index (g.layersShape.getD u.1 []) u.2))
        (Int.ofNat (get_spatial_index (g.layersShape.getD v.1 []) v.2)) := by
  simp only [add_edge, if_neg h]

lemma add_edge_outLayer_nogrow (g : DependencyGraph) (u v : Vertex)
    (h : ¬ g.outCap u.1 ≤ g.outCount u.1 (get_spatial_index (g.layersShape.getD u.1 []) u.2)) :
    (add_edge g u v).outLayer =
      upd3 g.outLayer u.1 (get_spatial_index (g.layersShape.getD u.1 []) u.2)
        (g.outCount u.1 (get_spatial_index (g.layersShape.getD u.1 []) u.2))
        (Int.ofNat v.1) := by
  simp only [add_edge, if_neg h]

lemma add_edge_outSpatial_grow (g : DependencyGraph) (u v : Vertex)
    (h : g.outCap u.1 ≤ g.outCount u.1 (get_spatial_index (g.layersShape.getD u.1 []) u.2)) :
    (add_edge g u v).outSpatial =
      upd3 (fun l s j => if l = u.1
          then (if j < g.outCap u.1 then g.outSpatial l s j else NONE_INT_VALUE)
          else g.outSpatial l s j)
        u.1 (get_spatial_index (g.layersShape.getD u.1 []) u.2)
        (g.outCount u.1 (get_spatial_index (g.layersShape.getD u.1 []) u.2))
        (Int.ofNat (get_spatial_index (g.layersShape.getD v.1 []) v.2)) := by
  simp only [add_edge, increase_layer_num_of_edges, if_pos h]

lemma getD_concat {α : Type} (l : List α) (a d : α) : (l ++ [a]).getD l.length d = a := by
  induction l with
  | nil => rfl
  | cons x xs ih => simpa using ih

lemma add_edge_outLayer_grow (g : DependencyGraph) (u v : Vertex)
    (h : g.outCap u.1 ≤ g.outCount u.1 (get_spatial_index (g.layersShape.getD u.1 []) u.2)) :
    (add_edge g u v).outLayer =
      upd3 (fun l s j => if l = u.1
          then (if j < g.outCap u.1 then g.outLayer l s j else NONE_INT_VALUE)
          else g.outLayer l s j)
        u.1 (get_spatial_index (g.layersShape.getD u.1 []) u.2)
        (g.outCount u.1 (get_spatial_index (g.layersShape.getD u.1 []) u.2))
        (Int.ofNat v.1) := by
  simp only [add_edge, increase_layer_num_of_edges, if_pos h]

/-! ### The index-level view of the recorded edge multiset -/

/-- Compact encoding of a located vertex: (layer index, flat spatial index),
exactly as `add_edge` stores it. -/
def to_index (S : List (List Nat)) (v : Vertex) : IdxVertex :=
  (v.1, get_spatial_index (S.getD v.1 []) v.2)

/-- Destinations (in recording order) of the edges whose source is `p`. -/
def src_edges (E : List (IdxVertex × IdxVertex)) (p : IdxVertex) : List IdxVertex :=
  (E.filter (fun e => e.1 = p)).map Prod.snd

/-- Number of recorded edges into `p` (with multiplicity). -/
def in_degree (E : List (IdxVertex × IdxVertex)) (p : IdxVertex) : Nat :=
  (E.filter (fun e => e.2 = p)).length

/-- Number of recorded edges into `p` whose source already appears in `em`. -/
def processed_into (E : List (IdxVertex × IdxVertex)) (em : List IdxVertex)
    (p : IdxVertex) : Nat :=
  (E.filter (fun e => e.2 = p ∧ e.1 ∈ em)).length

lemma src_edges_append_single (E : List (IdxVertex × IdxVertex))
    (e0 : IdxVertex × IdxVertex) (p : IdxVertex) :
    src_edges (E ++ [e0]) p = src_edges E p ++ (if e0.1 = p then [e0.2] else []) := by
  by_cases h : e0.1 = p <;> simp [src_edges, List.filter_append, h]

lemma in_degree_append_single (E : List (IdxVertex × IdxVertex))
    (e0 : IdxVertex × IdxVertex) (p : IdxVertex) :
    in_degree (E ++ [e0]) p = in_degree E p + (if e0.2 = p then 1 else 0) := by
  by_cases h : e0.2 = p <;> simp [in_degree, List.filter_append, h]

/-- Invariant tying a graph state reached by `create_vertices` followed by
`add_edge` calls to the list `E` of recorded index-level edges: the counters
count `E`, the first `outCount` slots of each row of the outgoing tables list
the destinations in recording order, and every row's recorded prefix fits the
allocated width. -/
structure Wf (S : List (List Nat)) (E : List (IdxVertex × IdxVertex))
    (g : DependencyGraph) : Prop where
  shapes : g.layersShape = S
  vcount : g.verticesCounter = (S.map List.prod).sum
  out_count : ∀ a b : Nat, g.outCount a b = (src_edges E (a, b)).length
  in_count : ∀ a b : Nat, g.inCount a b = in_degree E (a, b)
  table_layer : ∀ a b j : Nat, j < (src_edges E (a, b)).length →
    g.outLayer a b j = Int.ofNat ((src_edges E (a, b)).getD j (0, 0)).1
  table_spatial : ∀ a b j : Nat, j < (src_edges E (a, b)).length →
    g.outSpatial a b j = Int.ofNat ((src_edges E (a, b)).getD j (0, 0)).2
  caps : ∀ a b : Nat, (src_edges E (a, b)).length ≤ g.outCap a
  cap_pos : ∀ l, 1 ≤ g.outCap l

lemma wf_create (default_cap : Nat) (layers : List Layer) (hcap : 1 ≤ default_cap) :
    Wf (layers.map layer_spatial_shape) [] (create_vertices default_cap layers) := by
  refine ⟨rfl, ?_, ?_, ?_, ?_, ?_, ?_, ?_⟩
  · simp only [create_vertices, List.map_map]
    rfl
  · intro a b; simp [create_vertices, src_edges]
  · intro a b; simp [create_vertices, in_degree]
  · intro a b j hj; simp [src_edges] at hj
  · intro a b j hj; simp [src_edges] at hj
  · intro a b; simp [create_vertices, src_edges]
  · intro l; exact hcap

/-- Effect of one table write (possibly after the grow step) on the
table-contents invariant.  `Tbase` is the table as it stands right before the
write: either the original table or its grown copy; both agree with the
original on every recorded slot. -/
lemma table_step (E : List (IdxVertex × IdxVertex)) (e0 : IdxVertex × IdxVertex)
    (T Tbase : Nat → Nat → Nat → Int) (proj : IdxVertex → Int)
    (hT : ∀ a b j : Nat, j < (src_edges E (a, b)).length →
      T a b j = proj ((src_edges E (a, b)).getD j (0, 0)))
    (hbase : ∀ a b j : Nat, j < (src_edges E (a, b)).length → Tbase a b j = T a b j) :
    ∀ a b j : Nat, j < (src_edges (E ++ [e0]) (a, b)).length →
      upd3 Tbase e0.1.1 e0.1.2 ((src_edges E e0.1).length) (proj e0.2) a b j =
        proj ((src_edges (E ++ [e0]) (a, b)).getD j (0, 0)) := by
  obtain ⟨⟨u1, usi⟩, q0⟩ := e0
  intro a b j hj
  rw [src_edges_append_single] at hj ⊢
  dsimp only at hj ⊢
  by_cases hab : (u1, usi) = (a, b)
  · rw [Prod.mk.injEq] at hab
    obtain ⟨rfl, rfl⟩ := hab
    rw [if_pos rfl] at hj ⊢
    simp only [List.length_append, List.length_cons, List.length_nil] at hj
    by_cases hjc : j = (src_edges E (u1, usi)).length
    · subst hjc
      rw [upd3_self, getD_concat]
    · have hjlt : j < (src_edges E (u1, usi)).length := by omega
      rw [upd3_ne _ _ _ _ _ _ _ _ (by tauto), List.getD_append _ _ _ _ hjlt,
        hbase _ _ _ hjlt]
      exact hT _ _ _ hjlt
  · rw [if_neg (fun h => hab h)] at hj ⊢
    rw [List.append_nil] at hj ⊢
    have hne3 : ¬(a = u1 ∧ b = usi ∧ j = (src_edges E (u1, usi)).length) := by
      intro ⟨h1, h2, _⟩
      exact hab (by rw [h1, h2])
    rw [upd3_ne _ _ _ _ _ _ _ _ hne3, hbase _ _ _ hj]
    exact hT _ _ _ hj

lemma wf_add_edge {S : List (List Nat)} {E : List (IdxVertex × IdxVertex)}
    {g : DependencyGraph} (wf : Wf S E g) (u v : Vertex) :
    Wf S (E ++ [(to_index S u, to_index S v)]) (add_edge g u v) := by
  obtain ⟨hsh, hvc, hoc, hic, htl, hts, hcaps, hcp⟩ := wf
  subst hsh
  refine ⟨?_, ?_, ?_, ?_, ?_, ?_, ?_, ?_⟩
  · rw [add_edge_layersShape]
  · rw [add_edge_verticesCounter]; exact hvc
  · -- outgoing-edge counters
    intro a b
    rw [add_edge_outCount, src_edges_append_single]
    simp only [to_index]
    by_cases h1 : a = u.1
    · subst h1
      by_cases h2 : b = get_spatial_index (g.layersShape.getD u.1 []) u.2
      · subst h2
        rw [upd2_self, if_pos rfl, hoc]
        simp
      · rw [upd2_ne _ _ _ _ _ _ (by tauto),
          if_neg (fun h => h2 (by injection h with ha hb; exact hb.symm)), List.append_nil]
        exact hoc _ _
    · rw [upd2_ne _ _ _ _ _ _ (by tauto),
        if_neg (fun h => h1 (by injection h with ha hb; exact ha.symm)), List.append_nil]
      exact hoc _ _
  · -- incoming-edge counters
    intro a b
    rw [add_edge_inCount, in_degree_append_single]
    simp only [to_index]
    by_cases h1 : a = v.1
    · subst h1
      by_cases h2 : b = get_spatial_index (g.layersShape.getD v.1 []) v.2
      · subst h2
        rw [upd2_self, if_pos rfl, hic]
      · rw [upd2_ne _ _ _ _ _ _ (by tauto),
          if_neg (fun h => h2 (by injection h with ha hb; exact hb.symm))]
        simp [hic]
    · rw [upd2_ne _ _ _ _ _ _ (by tauto),
        if_neg (fun h => h1 (by injection h with ha hb; exact ha.symm))]
      simp [hic]
  · -- destination-layer table
    intro a b j hj
    by_cases hgrow : g.outCap u.1 ≤ g.outCount u.1
        (get_spatial_index (g.layersShape.getD u.1 []) u.2)
    · rw [add_edge_outLayer_grow _ _ _ hgrow, hoc]
      exact table_step E
        ((u.1, get_spatial_index (g.layersShape.getD u.1 []) u.2),
         (v.1, get_spatial_index (g.layersShape.getD v.1 []) v.2))
        g.outLayer _ (fun q => Int.ofNat q.1) htl
        (fun a' b' j' hj' => by
          by_cases hl : a' = u.1
          · subst hl
            rw [if_pos rfl, if_pos (lt_of_lt_of_le hj' (hcaps u.1 b'))]
          · rw [if_neg hl])
        a b j hj
    · rw [add_edge_outLayer_nogrow _ _ _ hgrow, hoc]
      exact table_step E
        ((u.1, get_spatial_index (g.layersShape.getD u.1 []) u.2),
         (v.1, get_spatial_index (g.layersShape.getD v.1 []) v.2))
        g.outLayer g.outLayer (fun q => Int.ofNat q.1) htl
        (fun _ _ _ _ => rfl) a b j hj
  · -- destination-spatial table
    intro a b j hj
    by_cases hgrow : g.outCap u.1 ≤ g.outCount u.1
        (get_spatial_index (g.layersShape.getD u.1 []) u.2)
    · rw [add_edge_outSpatial_grow _ _ _ hgrow, hoc]
      exact table_step E
        ((u.1, get_spatial_index (g.layersShape.getD u.1 []) u.2),
         (v.1, get_spatial_index (g.layersShape.getD v.1 []) v.2))
        g.outSpatial _ (fun q => Int.ofNat q.2) hts
        (fun a' b' j' hj' => by
          by_cases hl : a' = u.1
          · subst hl
            rw [if_pos rfl, if_pos (lt_of_lt_of_le hj' (hcaps u.1 b'))]
          · rw [if_neg hl])
        a b j hj
    · rw [add_edge_outSpatial_nogrow _ _ _ hgrow, hoc]
      exact table_step E
        ((u.1, get_spatial_index (g.layersShape.getD u.1 []) u.2),
         (v.1, get_spatial_index (g.layersShape.getD v.1 []) v.2))
        g.outSpatial g.outSpatial (fun q => Int.ofNat q.2) hts
        (fun _ _ _ _ => rfl) a b j hj
  · -- capacities dominate recorded counts
    intro a b
    rw [add_edge_outCap, src_edges_append_single]
    simp only [to_index]
    by_cases hgrow : g.outCap u.1 ≤ g.outCount u.1
        (get_spatial_index (g.layersShape.getD u.1 []) u.2)
    · rw [if_pos hgrow]
      rw [hoc] at hgrow
      by_cases h1 : a = u.1
      · subst h1
        rw [upd1_self]
        by_cases h2 : b = get_spatial_index (g.layersShape.getD u.1 []) u.2
        · subst h2
          rw [if_pos rfl]
          have hle := hcaps u.1 (get_spatial_index (g.layersShape.getD u.1 []) u.2)
          have hpos := hcp u.1
          simp only [List.length_append, List.length_cons, List.length_nil]
          omega
        · rw [if_neg (fun h => h2 (by injection h with ha hb; exact hb.symm)), List.append_nil]
          have hle := hcaps u.1 b
          omega
      · rw [upd1_ne _ _ _ _ h1,
          if_neg (fun h => h1 (by injection h with ha hb; exact ha.symm)), List.append_nil]
        exact hcaps _ _
    · rw [if_neg hgrow]
      rw [hoc] at hgrow
      by_cases h1 : a = u.1
      · subst h1
        by_cases h2 : b = get_spatial_index (g.layersShape.getD u.1 []) u.2
        · subst h2
          rw [if_pos rfl]
          simp only [List.length_append, List.length_cons, List.length_nil]
          omega
        · rw [if_neg (fun h => h2 (by injection h with ha hb; exact hb.symm)), List.append_nil]
          exact hcaps _ _
      · rw [if_neg (fun h => h1 (by injection h with ha hb; exact ha.symm)), List.append_nil]
        exact hcaps _ _
  · -- widths stay positive
    intro l
    rw [add_edge_outCap]
    by_cases hgrow : g.outCap u.1 ≤ g.outCount u.1
        (get_spatial_index (g.layersShape.getD u.1 []) u.2)
    · rw [if_pos hgrow]
      by_cases hl : l = u.1
      · subst hl
        rw [upd1_self]
        have := hcp u.1
        omega
      · rw [upd1_ne _ _ _ _ hl]
        exact hcp l
    · rw [if_neg hgrow]
      exact hcp l

/-- Index-level edge list recorded by a sequence of `add_edge` calls. -/
def edges_index (S : List (List Nat)) (es : List (Vertex × Vertex)) :
    List (IdxVertex × IdxVertex) :=
  es.map (fun e => (to_index S e.1, to_index S e.2))

lemma wf_fold {S : List (List Nat)} (es : List (Vertex × Vertex)) :
    ∀ (g : DependencyGraph) (E : List (IdxVertex × IdxVertex)), Wf S E g →
    Wf S (E ++ edges_index S es) (es.foldl (fun g e => add_edge g e.1 e.2) g) := by
  induction es with
  | nil => intro g E wf; simpa [edges_index] using wf
  | cons e es ih =>
    intro g E wf
    have h1 := wf_add_edge wf e.1 e.2
    have h2 := ih (add_edge g e.1 e.2) (E ++ [(to_index S e.1, to_index S e.2)]) h1
    simpa [edges_index, List.append_assoc] using h2

lemma wf_build (default_cap : Nat) (layers : List Layer) (es : List (Vertex × Vertex))
    (hcap : 1 ≤ default_cap) :
    Wf (layers.map layer_spatial_shape) (edges_index (layers.map layer_spatial_shape) es)
      (build_graph default_cap layers es) := by
  have := wf_fold es (create_vertices default_cap layers) [] (wf_create default_cap layers hcap)
  simpa [build_graph] using this

lemma getD_map {α β : Type} (f : α → β) (l : List α) (k : Nat) (hk : k < l.length)
    (da : α) (db : β) : (l.map f).getD k db = f (l.getD k da) := by
  induction l generalizing k with
  | nil => simp at hk
  | cons x xs ih =>
    cases k with
    | zero => rfl
    | succ n =>
      simp only [List.map_cons, List.getD_cons_succ]
      exact ih n (by simpa using hk)

/-- C10: for a layer acting purely as a model input (an `InputLayer`), vertex
creation appends an assumed trailing channel dimension of size `1` (it does so
exactly for `InputLayer`s, whose declared shapes omit the channel dimension),
and that `1` is consumed again by the channel strip `[1:-1]`, so the recorded
spatial shape is the declared non-batch shape and the layer receives exactly
one unit per spatial position of its declared shape. -/
theorem input_layer_spatial_shape_spec (default_cap : Nat) (layers : List Layer)
    (k : Nat) (hk : k < layers.length) (b : Nat) (rest : List Nat)
    (hin : (layers.getD k ⟨[], false⟩).is_input = true)
    (hshape : (layers.getD k ⟨[], false⟩).output_shape = b :: rest) :
    (create_vertices default_cap layers).layersShape.getD k [] = rest ∧
    ((create_vertices default_cap layers).layersShape.getD k []).prod = rest.prod ∧
    layer_spatial_shape (layers.getD k ⟨[], false⟩) =
      (((layers.getD k ⟨[], false⟩).output_shape ++ [1]).drop 1).dropLast := by
  have h1 : (create_vertices default_cap layers).layersShape.getD k [] =
      layer_spatial_shape (layers.getD k ⟨[], false⟩) := by
    simp only [create_vertices]
    exact getD_map _ _ _ hk _ _
  have h2 : layer_spatial_shape (layers.getD k ⟨[], false⟩) = rest := by
    rw [layer_spatial_shape, hin, if_pos rfl, hshape, List.cons_append, List.drop_one,
      List.tail_cons, List.dropLast_concat]
  refine ⟨by rw [h1, h2], by rw [h1, h2], ?_⟩
  rw [layer_spatial_shape, hin, if_pos rfl]

/-- A theorem whose statement has an `InputLayer` with a channel dimension is
not needed: the witness instantiates the above at a concrete network. -/
theorem input_layer_spatial_shape_spec_witness :
    (create_vertices 10 [⟨[0, 4], true⟩]).layersShape.getD 0 [] = [4] ∧
    ((create_vertices 10 [⟨[0, 4], true⟩]).layersShape.getD 0 []).prod = [4].prod :=
  ⟨(input_layer_spatial_shape_spec 10 [⟨[0, 4], true⟩] 0 (by decide) 0 [4] rfl rfl).1,
   (input_layer_spatial_shape_spec 10 [⟨[0, 4], true⟩] 0 (by decide) 0 [4] rfl rfl).2.1⟩

/-! ### C6: the capacity invariant -/

lemma add_edge_outCap_cases (g : DependencyGraph) (u v : Vertex) (l : Nat) :
    (add_edge g u v).outCap l = g.outCap l ∨ (add_edge g u v).outCap l = g.outCap l * 2 := by
  rw [add_edge_outCap]
  split
  · by_cases hl : l = u.1
    · subst hl
      rw [upd1_self]
      right
      rfl
    · rw [upd1_ne _ _ _ _ hl]
      left
      rfl
  · left
    rfl

lemma add_edge_cap_invariant (g : DependencyGraph) (u v : Vertex)
    (hpos : ∀ l, 1 ≤ g.outCap l) (hinv : ∀ l s, g.outCount l s ≤ g.outCap l) :
    (∀ l, 1 ≤ (add_edge g u v).outCap l) ∧
      ∀ l s, (add_edge g u v).outCount l s ≤ (add_edge g u v).outCap l := by
  constructor
  · intro l
    rcases add_edge_outCap_cases g u v l with h | h <;> rw [h]
    · exact hpos l
    · have := hpos l
      omega
  · intro l s
    rw [add_edge_outCount, add_edge_outCap]
    by_cases hmem : l = u.1 ∧ s = get_spatial_index (g.layersShape.getD u.1 []) u.2
    · obtain ⟨rfl, rfl⟩ := hmem
      rw [upd2_self]
      split
      · rw [upd1_self]
        have h1 := hinv u.1 (get_spatial_index (g.layersShape.getD u.1 []) u.2)
        have h2 := hpos u.1
        omega
      · rename_i hngrow
        have h1 := hinv u.1 (get_spatial_index (g.layersShape.getD u.1 []) u.2)
        omega
    · rw [upd2_ne _ _ _ _ _ _ hmem]
      split
      · by_cases hl : l = u.1
        · subst hl
          rw [upd1_self]
          have := hinv u.1 s
          omega
        · rw [upd1_ne _ _ _ _ hl]
          exact hinv l s
      · exact hinv l s

lemma fold_cap_invariant (es : List (Vertex × Vertex)) :
    ∀ g : DependencyGraph, (∀ l, 1 ≤ g.outCap l) → (∀ l s, g.outCount l s ≤ g.outCap l) →
    (∀ l, 1 ≤ (es.foldl (fun g e => add_edge g e.1 e.2) g).outCap l) ∧
      ∀ l s, (es.foldl (fun g e => add_edge g e.1 e.2) g).outCount l s ≤
        (es.foldl (fun g e => add_edge g e.1 e.2) g).outCap l := by
  induction es with
  | nil => intro g h1 h2; exact ⟨h1, h2⟩
  | cons e es ih =>
    intro g h1 h2
    obtain ⟨h1', h2'⟩ := add_edge_cap_invariant g e.1 e.2 h1 h2
    exact ih (add_edge g e.1 e.2) h1' h2'

lemma fold_cap_pow (es : List (Vertex × Vertex)) :
    ∀ (g : DependencyGraph) (c l : Nat), (∃ k, g.outCap l = c * 2 ^ k) →
    ∃ k, (es.foldl (fun g e => add_edge g e.1 e.2) g).outCap l = c * 2 ^ k := by
  induction es with
  | nil => intro g c l h; exact h
  | cons e es ih =>
    intro g c l h
    refine ih (add_edge g e.1 e.2) c l ?_
    obtain ⟨k, hk⟩ := h
    rcases add_edge_outCap_cases g e.1 e.2 l with h' | h'
    · exact ⟨k, by rw [h', hk]⟩
    · exact ⟨k + 1, by rw [h', hk]; ring⟩

/-- C6: after construction and after every sequence of `add_edge` calls, every
layer's outgoing-table width bounds the largest recorded outgoing-edge count of
any of its units; the width is always the initial width times a power of two
(it only ever doubles), and a single `add_edge` call either keeps it or exactly
doubles it — it never shrinks. -/
theorem capacity_invariant_spec (default_cap : Nat) (layers : List Layer)
    (es : List (Vertex × Vertex)) (hcap : 1 ≤ default_cap) :
    (∀ l s : Nat, (create_vertices default_cap layers).outCount l s ≤
      (create_vertices default_cap layers).outCap l) ∧
    (∀ l s : Nat, (build_graph default_cap layers es).outCount l s ≤
      (build_graph default_cap layers es).outCap l) ∧
    (∀ l : Nat, ∃ k : Nat, (build_graph default_cap layers es).outCap l = default_cap * 2 ^ k) ∧
    (∀ (g : DependencyGraph) (u v : Vertex) (l : Nat),
      g.outCap l ≤ (add_edge g u v).outCap l ∧
      ((add_edge g u v).outCap l = g.outCap l ∨
        (add_edge g u v).outCap l = g.outCap l * 2)) ∧
    (∀ (g : DependencyGraph) (u v : Vertex),
      (∀ l, 1 ≤ g.outCap l) → (∀ l s, g.outCount l s ≤ g.outCap l) →
      ∀ l s, (add_edge g u v).outCount l s ≤ (add_edge g u v).outCap l) := by
  have hinit0 : ∀ l s : Nat, (create_vertices default_cap layers).outCount l s ≤
      (create_vertices default_cap layers).outCap l := by
    intro l s
    simp [create_vertices]
  have hpos0 : ∀ l, 1 ≤ (create_vertices default_cap layers).outCap l := by
    intro l
    exact hcap
  refine ⟨hinit0, ?_, ?_, ?_, ?_⟩
  · exact (fold_cap_invariant es _ hpos0 hinit0).2
  · intro l
    exact fold_cap_pow es _ default_cap l ⟨0, by simp [create_vertices]⟩
  · intro g u v l
    constructor
    · rcases add_edge_outCap_cases g u v l with h | h <;> rw [h] <;> omega
    · exact add_edge_outCap_cases g u v l
  · intro g u v h1 h2
    exact (add_edge_cap_invariant g u v h1 h2).2

/-- C6 witness at a concrete graph and concrete indices. -/
theorem capacity_invariant_spec_witness :
    (build_graph 10 [⟨[0, 4, 1], false⟩] [((0, [0]), (0, [1]))]).outCount 0 0 ≤
      (build_graph 10 [⟨[0, 4, 1], false⟩] [((0, [0]), (0, [1]))]).outCap 0 ∧
    ∃ k : Nat, (build_graph 10 [⟨[0, 4, 1], false⟩] [((0, [0]), (0, [1]))]).outCap 0 = 10 * 2 ^ k :=
  ⟨(capacity_invariant_spec 10 [⟨[0, 4, 1], false⟩] [((0, [0]), (0, [1]))] (by decide)).2.1 0 0,
   (capacity_invariant_spec 10 [⟨[0, 4, 1], false⟩] [((0, [0]), (0, [1]))] (by decide)).2.2.1 0⟩

/-! ### C5: growth of the outgoing tables -/

/-- C5: when an `add_edge` call finds the next free slot index at or beyond the
table width of the source layer, the reallocation step doubles both outgoing
tables of that layer, preserving every column below the old width for every
row and sentinel-filling every new column; after the call completes, the width
has exactly doubled and every previously recorded edge entry of every unit of
the layer is still at its original `[spatial index, slot]` position (the one
new slot written by the call holds the new edge; all other new slots hold the
sentinel). -/
theorem table_growth_spec (default_cap : Nat) (layers : List Layer)
    (es : List (Vertex × Vertex)) (hcap : 1 ≤ default_cap) (u v : Vertex)
    (hgrow : (build_graph default_cap layers es).outCap u.1 ≤
      (build_graph default_cap layers es).outCount u.1
        (get_spatial_index ((build_graph default_cap layers es).layersShape.getD u.1 []) u.2)) :
    -- the reallocation step alone, on the graph g it is applied to
    (∀ s j : Nat, j < (build_graph default_cap layers es).outCap u.1 →
      (increase_layer_num_of_edges (build_graph default_cap layers es) u.1).outSpatial u.1 s j =
        (build_graph default_cap layers es).outSpatial u.1 s j ∧
      (increase_layer_num_of_edges (build_graph default_cap layers es) u.1).outLayer u.1 s j =
        (build_graph default_cap layers es).outLayer u.1 s j) ∧
    (∀ s j : Nat, (build_graph default_cap layers es).outCap u.1 ≤ j →
      (increase_layer_num_of_edges (build_graph default_cap layers es) u.1).outSpatial u.1 s j =
        NONE_INT_VALUE ∧
      (increase_layer_num_of_edges (build_graph default_cap layers es) u.1).outLayer u.1 s j =
        NONE_INT_VALUE) ∧
    (increase_layer_num_of_edges (build_graph default_cap layers es) u.1).outCap u.1 =
      (build_graph default_cap layers es).outCap u.1 * 2 ∧
    -- the completed add_edge call
    (add_edge (build_graph default_cap layers es) u v).outCap u.1 =
      (build_graph default_cap layers es).outCap u.1 * 2 ∧
    (∀ s j : Nat, j < (build_graph default_cap layers es).outCount u.1 s →
      (add_edge (build_graph default_cap layers es) u v).outSpatial u.1 s j =
        (build_graph default_cap layers es).outSpatial u.1 s j ∧
      (add_edge (build_graph default_cap layers es) u v).outLayer u.1 s j =
        (build_graph default_cap layers es).outLayer u.1 s j) := by
  have wf := wf_build default_cap layers es hcap
  have hcnt_le : ∀ s, (build_graph default_cap layers es).outCount u.1 s ≤
      (build_graph default_cap layers es).outCap u.1 := by
    intro s
    rw [wf.out_count]
    exact wf.caps u.1 s
  refine ⟨?_, ?_, ?_, ?_, ?_⟩
  · intro s j hj
    constructor <;> simp [increase_layer_num_of_edges, hj]
  · intro s j hj
    have hj' : ¬ j < (build_graph default_cap layers es).outCap u.1 := Nat.not_lt.mpr hj
    constructor <;> simp [increase_layer_num_of_edges, hj']
  · simp only [increase_layer_num_of_edges, upd1_self]
  · rw [add_edge_outCap, if_pos hgrow, upd1_self]
  · intro s j hj
    have hlt : j < (build_graph default_cap layers es).outCap u.1 :=
      lt_of_lt_of_le hj (hcnt_le s)
    have hne3 : ¬(u.1 = u.1 ∧ s = get_spatial_index
        ((build_graph default_cap layers es).layersShape.getD u.1 []) u.2 ∧
        j = (build_graph default_cap layers es).outCount u.1
          (get_spatial_index ((build_graph default_cap layers es).layersShape.getD u.1 []) u.2)) := by
      intro ⟨_, hs, hjc⟩
      rw [hs] at hj
      omega
    constructor
    · rw [add_edge_outSpatial_grow _ _ _ hgrow, upd3_ne _ _ _ _ _ _ _ _ hne3,
        if_pos rfl, if_pos hlt]
    · rw [add_edge_outLayer_grow _ _ _ hgrow, upd3_ne _ _ _ _ _ _ _ _ hne3,
        if_pos rfl, if_pos hlt]

/-- C5 witness: a unit of a two-layer network exceeds a deliberately small
initial capacity; the table doubles and a pre-growth edge of another unit of
the same layer survives unchanged. -/
theorem table_growth_spec_witness :
    (add_edge (build_graph 1 [⟨[0, 2, 1], false⟩, ⟨[0, 3, 1], false⟩]
        [((0, [1]), (1, [2])), ((0, [0]), (1, [0]))]) (0, [0]) (1, [1])).outCap 0 =
      (build_graph 1 [⟨[0, 2, 1], false⟩, ⟨[0, 3, 1], false⟩]
        [((0, [1]), (1, [2])), ((0, [0]), (1, [0]))]).outCap 0 * 2 ∧
    (add_edge (build_graph 1 [⟨[0, 2, 1], false⟩, ⟨[0, 3, 1], false⟩]
        [((0, [1]), (1, [2])), ((0, [0]), (1, [0]))]) (0, [0]) (1, [1])).outSpatial 0 1 0 =
      (build_graph 1 [⟨[0, 2, 1], false⟩, ⟨[0, 3, 1], false⟩]
        [((0, [1]), (1, [2])), ((0, [0]), (1, [0]))]).outSpatial 0 1 0 := by
  have h := table_growth_spec 1 [⟨[0, 2, 1], false⟩, ⟨[0, 3, 1], false⟩]
    [((0, [1]), (1, [2])), ((0, [0]), (1, [0]))] (by decide) (0, [0]) (1, [1]) (by decide)
  exact ⟨h.2.2.2.1, (h.2.2.2.2 1 0 (by decide)).1⟩

/-! ### C8: a single layer with spatial shape (4,) and no edges -/

/-- C8 counterexample: the work structure is a LIFO stack, so the zero-in-degree
seeds pushed in ascending spatial order are emitted in descending order, not in
seed order as claimed. -/
theorem single_layer_seed_order_counterexample :
    (topological_sort (build_graph 10 [⟨[0, 4, 1], false⟩] [])).1 =
      Except.ok [(0, [3]), (0, [2]), (0, [1]), (0, [0])] ∧
    ¬ (topological_sort (build_graph 10 [⟨[0, 4, 1], false⟩] [])).1 =
      Except.ok [(0, [0]), (0, [1]), (0, [2]), (0, [3])] := by
  refine ⟨rfl, ?_⟩
  intro h
  have h1 := Except.ok.inj h
  exact absurd h1 (by decide)

/-- C8 amended: for a single layer of spatial shape (4,) and no edges,
`topological_sort` succeeds and returns all four units, each of in-degree 0, in
*reverse* seed order (descending spatial index), because the seeded units are
drained from an explicit LIFO stack. -/
theorem single_layer_reverse_seed_order :
    (topological_sort (build_graph 10 [⟨[0, 4, 1], false⟩] [])).1 =
      Except.ok [(0, [3]), (0, [2]), (0, [1]), (0, [0])] ∧
    [(0, [3]), (0, [2]), (0, [1]), (0, [0])] =
      List.reverse [(0, [0]), (0, [1]), (0, [2]), (0, [3])] ∧
    (∀ s : Nat, s < 4 → (build_graph 10 [⟨[0, 4, 1], false⟩] []).inCount 0 s = 0) ∧
    (build_graph 10 [⟨[0, 4, 1], false⟩] []).verticesCounter = 4 :=
  ⟨rfl, rfl, by decide, rfl⟩

/-! ### Frame lemmas: the sort phase never touches the edge data -/

/-- Two states agreeing on every field the sort phase reads but never writes
(shapes, edge tables, widths, degree counters, vertex count). -/
structure EqCore (g1 g2 : DependencyGraph) : Prop where
  shapes : g1.layersShape = g2.layersShape
  outS : g1.outSpatial = g2.outSpatial
  outL : g1.outLayer = g2.outLayer
  cap : g1.outCap = g2.outCap
  ocnt : g1.outCount = g2.outCount
  icnt : g1.inCount = g2.inCount
  vc : g1.verticesCounter = g2.verticesCounter

lemma eqcore_refl (g : DependencyGraph) : EqCore g g :=
  ⟨rfl, rfl, rfl, rfl, rfl, rfl, rfl⟩

lemma EqCore.comp {g1 g2 g3 : DependencyGraph} (h1 : EqCore g1 g2) (h2 : EqCore g2 g3) :
    EqCore g1 g3 :=
  ⟨h1.shapes.trans h2.shapes, h1.outS.trans h2.outS, h1.outL.trans h2.outL,
   h1.cap.trans h2.cap, h1.ocnt.trans h2.ocnt, h1.icnt.trans h2.icnt, h1.vc.trans h2.vc⟩

lemma wf_of_eqcore {S : List (List Nat)} {E : List (IdxVertex × IdxVertex)}
    {g g' : DependencyGraph} (wf : Wf S E g) (h : EqCore g' g) : Wf S E g' :=
  ⟨h.shapes ▸ wf.shapes, h.vc ▸ wf.vcount,
   fun a b => by rw [h.ocnt]; exact wf.out_count a b,
   fun a b => by rw [h.icnt]; exact wf.in_count a b,
   fun a b j hj => by rw [h.outL]; exact wf.table_layer a b j hj,
   fun a b j hj => by rw [h.outS]; exact wf.table_spatial a b j hj,
   fun a b => by rw [h.cap]; exact wf.caps a b,
   fun l => by rw [h.cap]; exact wf.cap_pos l⟩

lemma eqcore_push (g : DependencyGraph) (l s : Nat) : EqCore (push_vertex g l s) g :=
  ⟨rfl, rfl, rfl, rfl, rfl, rfl, rfl⟩

lemma eqcore_reset (g : DependencyGraph) : EqCore (reset_dfs_status g) g :=
  ⟨rfl, rfl, rfl, rfl, rfl, rfl, rfl⟩

lemma eqcore_foldl {β : Type} (f : DependencyGraph → β → DependencyGraph)
    (hf : ∀ g b, EqCore (f g b) g) (l : List β) :
    ∀ g, EqCore (l.foldl f g) g := by
  induction l with
  | nil => intro g; exact eqcore_refl g
  | cons b l ih => intro g; exact (ih (f g b)).comp (hf g b)

lemma eqcore_ite_push (g : DependencyGraph) (c : Prop) [Decidable c] (l s : Nat) :
    EqCore (if c then push_vertex g l s else g) g := by
  split
  · exact eqcore_push g l s
  · exact eqcore_refl g

lemma eqcore_touch (g : DependencyGraph) (l s : Nat) : EqCore (touch_neighbor g l s) g := by
  unfold touch_neighbor
  exact (eqcore_ite_push _ _ _ _).comp ⟨rfl, rfl, rfl, rfl, rfl, rfl, rfl⟩

lemma eqcore_seed (g : DependencyGraph) :
    EqCore (add_vertices_with_zero_incoming_degree_to_queue g) g := by
  refine eqcore_foldl _ ?_ _ g
  intro g1 layer_index
  exact eqcore_foldl _ (fun g2 i => eqcore_ite_push g2 _ layer_index i) _ g1

lemma eqcore_dec (g : DependencyGraph) (l s : Nat) :
    EqCore (decrease_incoming_edge_counter_from_node_neighbors g l s) g :=
  eqcore_foldl _ (fun g1 i => eqcore_touch g1 _ _) _ g

lemma eqcore_drain_step (g : DependencyGraph) (res : List Vertex) :
    EqCore (drain_step g res).1 g := by
  unfold drain_step
  exact (eqcore_dec _ _ _).comp ⟨rfl, rfl, rfl, rfl, rfl, rfl, rfl⟩

lemma eqcore_drain_loop (fuel : Nat) :
    ∀ (g : DependencyGraph) (res : List Vertex), EqCore (drain_loop fuel g res).1 g := by
  induction fuel with
  | zero => intro g res; exact eqcore_refl g
  | succ fuel ih =>
    intro g res
    rw [drain_loop]
    split
    · exact eqcore_refl g
    · exact (ih _ _).comp (eqcore_drain_step g res)

lemma eqcore_sort_core (g : DependencyGraph) : EqCore (topological_sort_core g).1 g :=
  (eqcore_drain_loop _ _ _).comp ((eqcore_seed _).comp (eqcore_reset g))

lemma EqCore.symm {g1 g2 : DependencyGraph} (h : EqCore g1 g2) : EqCore g2 g1 :=
  ⟨h.shapes.symm, h.outS.symm, h.outL.symm, h.cap.symm, h.ocnt.symm, h.icnt.symm, h.vc.symm⟩

/-! ### Determinism: the sort phase reads only the core, the work-status
arrays, and the live segment of the stack -/

/-- Agreement of two states on everything the sort phase can observe. -/
structure QAgree (g1 g2 : DependencyGraph) : Prop where
  core : EqCore g1 g2
  dfs : g1.dfsStatus = g2.dfsStatus
  qlen : g1.queueLen = g2.queueLen
  qlayer : ∀ i, i < g1.queueLen → g1.queueLayer i = g2.queueLayer i
  qspatial : ∀ i, i < g1.queueLen → g1.queueSpatial i = g2.queueSpatial i

lemma qagree_reset {g1 g2 : DependencyGraph} (h : EqCore g1 g2) :
    QAgree (reset_dfs_status g1) (reset_dfs_status g2) := by
  refine ⟨(eqcore_reset g1).comp (h.comp (eqcore_reset g2).symm), ?_, rfl, ?_, ?_⟩
  · funext l s
    show (g1.inCount l s : Int) = (g2.inCount l s : Int)
    rw [h.icnt]
  · intro i hi
    exact absurd hi (Nat.not_lt_zero i)
  · intro i hi
    exact absurd hi (Nat.not_lt_zero i)

lemma qagree_push {g1 g2 : DependencyGraph} (h : QAgree g1 g2) (l s : Nat) :
    QAgree (push_vertex g1 l s) (push_vertex g2 l s) := by
  refine ⟨(eqcore_push g1 l s).comp (h.core.comp (eqcore_push g2 l s).symm), h.dfs, ?_, ?_, ?_⟩
  · show g1.queueLen + 1 = g2.queueLen + 1
    rw [h.qlen]
  · intro i hi
    show upd1 g1.queueLayer g1.queueLen (Int.ofNat l) i =
      upd1 g2.queueLayer g2.queueLen (Int.ofNat l) i
    by_cases he : i = g1.queueLen
    · rw [he, upd1_self, ← h.qlen, upd1_self]
    · have hi' : i < g1.queueLen := by
        have : i < g1.queueLen + 1 := hi
        omega
      rw [upd1_ne _ _ _ _ he, upd1_ne _ _ _ _ (by rw [← h.qlen]; exact he)]
      exact h.qlayer i hi'
  · intro i hi
    show upd1 g1.queueSpatial g1.queueLen (Int.ofNat s) i =
      upd1 g2.queueSpatial g2.queueLen (Int.ofNat s) i
    by_cases he : i = g1.queueLen
    · rw [he, upd1_self, ← h.qlen, upd1_self]
    · have hi' : i < g1.queueLen := by
        have : i < g1.queueLen + 1 := hi
        omega
      rw [upd1_ne _ _ _ _ he, upd1_ne _ _ _ _ (by rw [← h.qlen]; exact he)]
      exact h.qspatial i hi'

lemma qagree_touch {g1 g2 : DependencyGraph} (h : QAgree g1 g2) (l s : Nat) :
    QAgree (touch_neighbor g1 l s) (touch_neighbor g2 l s) := by
  have hd : upd2 g1.dfsStatus l s (g1.dfsStatus l s - 1) =
      upd2 g2.dfsStatus l s (g2.dfsStatus l s - 1) := by
    rw [h.dfs]
  have hmid : QAgree
      { g1 with dfsStatus := upd2 g1.dfsStatus l s (g1.dfsStatus l s - 1) }
      { g2 with dfsStatus := upd2 g2.dfsStatus l s (g2.dfsStatus l s - 1) } :=
    ⟨⟨h.core.shapes, h.core.outS, h.core.outL, h.core.cap, h.core.ocnt,
      h.core.icnt, h.core.vc⟩, hd, h.qlen, h.qlayer, h.qspatial⟩
  show QAgree
    (if upd2 g1.dfsStatus l s (g1.dfsStatus l s - 1) l s = 0
      then push_vertex { g1 with dfsStatus := upd2 g1.dfsStatus l s (g1.dfsStatus l s - 1) } l s
      else { g1 with dfsStatus := upd2 g1.dfsStatus l s (g1.dfsStatus l s - 1) })
    (if upd2 g2.dfsStatus l s (g2.dfsStatus l s - 1) l s = 0
      then push_vertex { g2 with dfsStatus := upd2 g2.dfsStatus l s (g2.dfsStatus l s - 1) } l s
      else { g2 with dfsStatus := upd2 g2.dfsStatus l s (g2.dfsStatus l s - 1) })
  by_cases hc : upd2 g1.dfsStatus l s (g1.dfsStatus l s - 1) l s = 0
  · rw [if_pos hc, if_pos (by rw [← hd]; exact hc)]
    exact qagree_push hmid l s
  · rw [if_neg hc, if_neg (by rw [← hd]; exact hc)]
    exact hmid

lemma qagree_foldl {β : Type} (f : DependencyGraph → β → DependencyGraph)
    (hf : ∀ a b x, QAgree a b → QAgree (f a x) (f b x)) (l : List β) :
    ∀ a b, QAgree a b → QAgree (l.foldl f a) (l.foldl f b) := by
  induction l with
  | nil =>
    intro a b h
    exact h
  | cons x l ih =>
    intro a b h
    exact ih (f a x) (f b x) (hf a b x h)

lemma qagree_dec {g1 g2 : DependencyGraph} (h : QAgree g1 g2) (l s : Nat) :
    QAgree (decrease_incoming_edge_counter_from_node_neighbors g1 l s)
      (decrease_incoming_edge_counter_from_node_neighbors g2 l s) := by
  show QAgree
    ((List.range (g1.outCount l s)).foldl (fun a i =>
      touch_neighbor a (a.outLayer l s i).toNat (a.outSpatial l s i).toNat) g1)
    ((List.range (g2.outCount l s)).foldl (fun a i =>
      touch_neighbor a (a.outLayer l s i).toNat (a.outSpatial l s i).toNat) g2)
  rw [h.core.ocnt]
  refine qagree_foldl _ ?_ _ g1 g2 h
  intro a b i hab
  dsimp only
  rw [hab.core.outL, hab.core.outS]
  exact qagree_touch hab _ _

lemma qagree_seed {g1 g2 : DependencyGraph} (h : QAgree g1 g2) :
    QAgree (add_vertices_with_zero_incoming_degree_to_queue g1)
      (add_vertices_with_zero_incoming_degree_to_queue g2) := by
  show QAgree
    ((List.range g1.layersShape.length).foldl (fun a layer_index =>
      (List.range ((a.layersShape.getD layer_index []).prod)).foldl (fun b i =>
        if b.dfsStatus layer_index i = 0 then push_vertex b layer_index i else b) a) g1)
    ((List.range g2.layersShape.length).foldl (fun a layer_index =>
      (List.range ((a.layersShape.getD layer_index []).prod)).foldl (fun b i =>
        if b.dfsStatus layer_index i = 0 then push_vertex b layer_index i else b) a) g2)
  rw [h.core.shapes]
  refine qagree_foldl _ ?_ _ g1 g2 h
  intro a b li hab
  dsimp only
  rw [hab.core.shapes]
  refine qagree_foldl _ ?_ _ a b hab
  intro c d i hcd
  dsimp only
  by_cases hc : c.dfsStatus li i = 0
  · rw [if_pos hc, if_pos (by rw [← hcd.dfs]; exact hc)]
    exact qagree_push hcd li i
  · rw [if_neg hc, if_neg (by rw [← hcd.dfs]; exact hc)]
    exact hcd

lemma qagree_drain_step {g1 g2 : DependencyGraph} (h : QAgree g1 g2)
    (hq : g1.queueLen ≠ 0) (res : List Vertex) :
    QAgree (drain_step g1 res).1 (drain_step g2 res).1 ∧
      (drain_step g1 res).2 = (drain_step g2 res).2 := by
  have hidx : g1.queueLen - 1 < g1.queueLen := Nat.sub_lt (Nat.pos_of_ne_zero hq) Nat.one_pos
  have hL : g1.queueLayer (g1.queueLen - 1) = g2.queueLayer (g2.queueLen - 1) := by
    rw [← h.qlen]
    exact h.qlayer _ hidx
  have hSp : g1.queueSpatial (g1.queueLen - 1) = g2.queueSpatial (g2.queueLen - 1) := by
    rw [← h.qlen]
    exact h.qspatial _ hidx
  have hpop : QAgree { g1 with queueLen := g1.queueLen - 1 }
      { g2 with queueLen := g2.queueLen - 1 } := by
    refine ⟨⟨h.core.shapes, h.core.outS, h.core.outL, h.core.cap, h.core.ocnt,
      h.core.icnt, h.core.vc⟩, h.dfs, ?_, ?_, ?_⟩
    · show g1.queueLen - 1 = g2.queueLen - 1
      rw [h.qlen]
    · intro i hi
      exact h.qlayer i (lt_of_lt_of_le hi (Nat.sub_le _ _))
    · intro i hi
      exact h.qspatial i (lt_of_lt_of_le hi (Nat.sub_le _ _))
  constructor
  · show QAgree
      (decrease_incoming_edge_counter_from_node_neighbors { g1 with queueLen := g1.queueLen - 1 }
        (g1.queueLayer (g1.queueLen - 1)).toNat (g1.queueSpatial (g1.queueLen - 1)).toNat)
      (decrease_incoming_edge_counter_from_node_neighbors { g2 with queueLen := g2.queueLen - 1 }
        (g2.queueLayer (g2.queueLen - 1)).toNat (g2.queueSpatial (g2.queueLen - 1)).toNat)
    rw [← hL, ← hSp]
    exact qagree_dec hpop _ _
  · show res ++ [((g1.queueLayer (g1.queueLen - 1)).toNat,
        spatial_index_to_location
          (g1.layersShape.getD (g1.queueLayer (g1.queueLen - 1)).toNat [])
          (g1.queueSpatial (g1.queueLen - 1)).toNat)] =
      res ++ [((g2.queueLayer (g2.queueLen - 1)).toNat,
        spatial_index_to_location
          (g2.layersShape.getD (g2.queueLayer (g2.queueLen - 1)).toNat [])
          (g2.queueSpatial (g2.queueLen - 1)).toNat)]
    rw [← hL, ← hSp, h.core.shapes]

lemma qagree_drain_loop (fuel : Nat) :
    ∀ (g1 g2 : DependencyGraph) (res : List Vertex), QAgree g1 g2 →
      QAgree (drain_loop fuel g1 res).1 (drain_loop fuel g2 res).1 ∧
      (drain_loop fuel g1 res).2 = (drain_loop fuel g2 res).2 := by
  induction fuel with
  | zero =>
    intro g1 g2 res h
    exact ⟨h, rfl⟩
  | succ fuel ih =>
    intro g1 g2 res h
    by_cases hq : g1.queueLen = 0
    · rw [drain_loop, drain_loop, if_pos hq, if_pos (by rw [← h.qlen]; exact hq)]
      exact ⟨h, rfl⟩
    · obtain ⟨h1, h2⟩ := qagree_drain_step h hq res
      have e1 : drain_loop (fuel + 1) g1 res =
          drain_loop fuel (drain_step g1 res).1 (drain_step g1 res).2 := by
        rw [drain_loop, if_neg hq]
      have e2 : drain_loop (fuel + 1) g2 res =
          drain_loop fuel (drain_step g2 res).1 (drain_step g2 res).2 := by
        rw [drain_loop, if_neg (by rw [← h.qlen]; exact hq)]
      rw [e1, e2, ← h2]
      exact ih _ _ _ h1

lemma sort_core_results_congr {g1 g2 : DependencyGraph} (h : EqCore g1 g2) :
    (topological_sort_core g1).2 = (topological_sort_core g2).2 := by
  have e1 : topological_sort_core g1 =
      drain_loop g1.verticesCounter (add_vertices_with_zero_incoming_degree_to_queue
        (reset_dfs_status g1)) [] := rfl
  have e2 : topological_sort_core g2 =
      drain_loop g2.verticesCounter (add_vertices_with_zero_incoming_degree_to_queue
        (reset_dfs_status g2)) [] := rfl
  rw [e1, e2, ← h.vc]
  exact (qagree_drain_loop g1.verticesCounter _ _ [] (qagree_seed (qagree_reset h))).2

lemma sort_results_congr {g1 g2 : DependencyGraph} (h : EqCore g1 g2) :
    (topological_sort g1).1 = (topological_sort g2).1 := by
  have hres := sort_core_results_congr h
  show (if (topological_sort_core g1).2.length ≠ g1.verticesCounter
      then Except.error cycle_error_message else Except.ok (topological_sort_core g1).2) =
    (if (topological_sort_core g2).2.length ≠ g2.verticesCounter
      then Except.error cycle_error_message else Except.ok (topological_sort_core g2).2)
  rw [hres, h.vc]

/-! ### The work stack as a list -/

/-- Contents of the work stack, bottom first. -/
def queue_view (g : DependencyGraph) : List IdxVertex :=
  (List.range g.queueLen).map (fun i => ((g.queueLayer i).toNat, (g.queueSpatial i).toNat))

lemma queue_view_length (g : DependencyGraph) : (queue_view g).length = g.queueLen := by
  simp [queue_view]

lemma queue_view_push (g : DependencyGraph) (l s : Nat) :
    queue_view (push_vertex g l s) = queue_view g ++ [(l, s)] := by
  unfold queue_view push_vertex
  simp only [List.range_succ, List.map_append, List.map_cons, List.map_nil]
  congr 1
  · refine List.map_congr_left ?_
    intro i hi
    have hne : i ≠ g.queueLen := Nat.ne_of_lt (List.mem_range.mp hi)
    rw [upd1_ne _ _ _ _ hne, upd1_ne _ _ _ _ hne]
  · rw [upd1_self, upd1_self]
    simp

lemma queue_view_pop (g : DependencyGraph) (h : g.queueLen ≠ 0) :
    queue_view g =
      queue_view { g with queueLen := g.queueLen - 1 } ++
        [((g.queueLayer (g.queueLen - 1)).toNat, (g.queueSpatial (g.queueLen - 1)).toNat)] := by
  unfold queue_view
  obtain ⟨n, hn⟩ : ∃ n, g.queueLen = n + 1 := ⟨g.queueLen - 1, by omega⟩
  rw [hn]
  simp [List.range_succ]

/-! ### Enumeration of the valid vertices -/

/-- A (layer index, flat spatial index) pair denoting an actual unit of the
network. -/
def valid_idx (S : List (List Nat)) (p : IdxVertex) : Prop :=
  p.1 < S.length ∧ p.2 < (S.getD p.1 []).prod

instance valid_idx_decidable (S : List (List Nat)) (p : IdxVertex) :
    Decidable (valid_idx S p) :=
  inferInstanceAs (Decidable (p.1 < S.length ∧ p.2 < (S.getD p.1 []).prod))

/-- All units, in layer-iteration order then ascending spatial order — the
order in which the seed phase scans them. -/
def all_vertices (S : List (List Nat)) : List IdxVertex :=
  (List.range S.length).flatMap (fun l => (List.range ((S.getD l []).prod)).map (fun s => (l, s)))

lemma mem_all_vertices (S : List (List Nat)) (p : IdxVertex) :
    p ∈ all_vertices S ↔ valid_idx S p := by
  simp only [all_vertices, List.mem_flatMap, List.mem_map, List.mem_range, valid_idx]
  constructor
  · rintro ⟨l, hl, s, hs, rfl⟩
    exact ⟨hl, hs⟩
  · rintro ⟨h1, h2⟩
    exact ⟨p.1, h1, p.2, h2, rfl⟩

lemma all_vertices_nodup (S : List (List Nat)) : (all_vertices S).Nodup := by
  rw [all_vertices, List.nodup_flatMap]
  constructor
  · intro l _
    exact List.Nodup.map (fun a b h => by injection h) (List.nodup_range _)
  · refine (List.nodup_range _).pairwise_of_forall_ne ?_
    intro a _ b _ hab x hx hx'
    simp only [List.mem_map, List.mem_range] at hx hx'
    obtain ⟨s, _, rfl⟩ := hx
    obtain ⟨s', _, h⟩ := hx'
    exact hab (by injection h with h1 h2; exact h1.symm)

lemma map_range_getD {α β : Type} (f : α → β) (da : α) (l : List α) :
    (List.range l.length).map (fun i => f (l.getD i da)) = l.map f := by
  induction l with
  | nil => rfl
  | cons x xs ih =>
    have hcomp : ((fun i => f ((x :: xs).getD i da)) ∘ Nat.succ) = fun i => f (xs.getD i da) := by
      funext i
      rfl
    rw [List.length_cons, List.range_succ_eq_map, List.map_cons, List.map_map, hcomp, ih,
      List.map_cons]
    rfl

lemma length_all_vertices (S : List (List Nat)) :
    (all_vertices S).length = (S.map List.prod).sum := by
  rw [all_vertices, List.length_flatMap]
  rw [show (List.length ∘ fun l => (List.range ((S.getD l []).prod)).map (fun s => (l, s))) =
      fun i => List.prod (S.getD i []) from by funext i; simp]
  exact congrArg List.sum (map_range_getD List.prod [] S)

/-! ### The seed phase -/

lemma push_vertex_dfsStatus (g : DependencyGraph) (l s : Nat) :
    (push_vertex g l s).dfsStatus = g.dfsStatus := rfl

lemma foldl_flatMap_eq {α β σ : Type} (f : α → List β) (step : σ → β → σ) (l : List α) :
    ∀ g : σ, (l.flatMap f).foldl step g = l.foldl (fun g a => (f a).foldl step g) g := by
  induction l with
  | nil => intro g; rfl
  | cons a l ih =>
    intro g
    rw [List.flatMap_cons, List.foldl_append, ih, List.foldl_cons]

lemma foldl_congr_inv {α σ : Type} (P : σ → Prop) (F G : σ → α → σ)
    (hP : ∀ g a, P g → P (F g a)) (hFG : ∀ g a, P g → F g a = G g a) :
    ∀ (l : List α) (g : σ), P g → l.foldl F g = l.foldl G g := by
  intro l
  induction l with
  | nil => intro g _; rfl
  | cons a l ih =>
    intro g hg
    rw [List.foldl_cons, List.foldl_cons, ← hFG g a hg]
    exact ih (F g a) (hP g a hg)

/-- The nested per-layer seed loops, written as one pass over the vertex
enumeration in the same order. -/
lemma seed_eq_fold_all (g : DependencyGraph) :
    add_vertices_with_zero_incoming_degree_to_queue g =
      (all_vertices g.layersShape).foldl
        (fun g2 p => if g2.dfsStatus p.1 p.2 = 0 then push_vertex g2 p.1 p.2 else g2) g := by
  rw [all_vertices, foldl_flatMap_eq]
  unfold add_vertices_with_zero_incoming_degree_to_queue
  refine foldl_congr_inv (fun g1 => g1.layersShape = g.layersShape) _ _ ?_ ?_ _ g rfl
  · intro g1 a h
    have : EqCore ((List.range ((g1.layersShape.getD a []).prod)).foldl
        (fun g2 i => if g2.dfsStatus a i = 0 then push_vertex g2 a i else g2) g1) g1 :=
      eqcore_foldl _ (fun g2 i => eqcore_ite_push g2 _ a i) _ g1
    rw [this.shapes, h]
  · intro g1 a h
    rw [h, ← List.foldl_map (fun s => (a, s))
      (fun g2 p => if g2.dfsStatus p.1 p.2 = 0 then push_vertex g2 p.1 p.2 else g2)]

lemma seed_fold_one (vs : List IdxVertex) :
    ∀ g : DependencyGraph,
      queue_view (vs.foldl
          (fun g2 p => if g2.dfsStatus p.1 p.2 = 0 then push_vertex g2 p.1 p.2 else g2) g) =
        queue_view g ++ vs.filter (fun p => g.dfsStatus p.1 p.2 = 0) ∧
      (vs.foldl (fun g2 p => if g2.dfsStatus p.1 p.2 = 0 then push_vertex g2 p.1 p.2 else g2)
          g).dfsStatus = g.dfsStatus := by
  induction vs with
  | nil => intro g; exact ⟨by simp, rfl⟩
  | cons p vs ih =>
    intro g
    by_cases h : g.dfsStatus p.1 p.2 = 0
    · obtain ⟨ih1, ih2⟩ := ih (push_vertex g p.1 p.2)
      rw [push_vertex_dfsStatus] at ih1 ih2
      constructor
      · rw [List.foldl_cons, if_pos h, ih1, queue_view_push,
          List.filter_cons_of_pos (by simpa using h), List.append_assoc]
        rfl
      · rw [List.foldl_cons, if_pos h, ih2]
    · obtain ⟨ih1, ih2⟩ := ih g
      constructor
      · rw [List.foldl_cons, if_neg h, ih1, List.filter_cons_of_neg (by simpa using h)]
      · rw [List.foldl_cons, if_neg h, ih2]

/-- What the seed phase produces: the stack holds exactly the vertices of
work-status zero, in enumeration order, and the status array is untouched. -/
lemma seed_spec (g : DependencyGraph) :
    queue_view (add_vertices_with_zero_incoming_degree_to_queue g) =
      queue_view g ++ (all_vertices g.layersShape).filter (fun p => g.dfsStatus p.1 p.2 = 0) ∧
    (add_vertices_with_zero_incoming_degree_to_queue g).dfsStatus = g.dfsStatus := by
  rw [seed_eq_fold_all]
  exact seed_fold_one _ g

lemma reset_queue_view (g : DependencyGraph) : queue_view (reset_dfs_status g) = [] := by
  simp [queue_view, reset_dfs_status]

/-! ### Counting recorded edges -/

/-- Occurrences of `a` in a list. -/
def count_v {α : Type} [DecidableEq α] (l : List α) (a : α) : Nat :=
  (l.filter (fun q => q = a)).length

/-- Multiplicity of the edge `u → p` in `E`. -/
def edge_count (E : List (IdxVertex × IdxVertex)) (u p : IdxVertex) : Nat :=
  (E.filter (fun e => e.1 = u ∧ e.2 = p)).length

lemma count_v_append (l1 l2 : List IdxVertex) (p : IdxVertex) :
    count_v (l1 ++ l2) p = count_v l1 p + count_v l2 p := by
  simp [count_v, List.filter_append]

lemma count_v_nil (p : IdxVertex) : count_v [] p = 0 := rfl

lemma count_v_cons (d : IdxVertex) (l : List IdxVertex) (p : IdxVertex) :
    count_v (d :: l) p = count_v l p + (if d = p then 1 else 0) := by
  by_cases h : d = p <;> simp [count_v, List.filter_cons, h] <;> omega

lemma processed_into_nil (E : List (IdxVertex × IdxVertex)) (p : IdxVertex) :
    processed_into E [] p = 0 := by
  simp [processed_into]

lemma src_edges_cons (e : IdxVertex × IdxVertex) (E : List (IdxVertex × IdxVertex))
    (u : IdxVertex) :
    src_edges (e :: E) u = (if e.1 = u then [e.2] else []) ++ src_edges E u := by
  by_cases h : e.1 = u <;> simp [src_edges, List.filter_cons, h]

lemma edge_count_cons (e : IdxVertex × IdxVertex) (E : List (IdxVertex × IdxVertex))
    (u p : IdxVertex) :
    edge_count (e :: E) u p = edge_count E u p + (if e.1 = u ∧ e.2 = p then 1 else 0) := by
  by_cases h : e.1 = u ∧ e.2 = p <;> simp [edge_count, List.filter_cons, h]

lemma in_degree_cons (e : IdxVertex × IdxVertex) (E : List (IdxVertex × IdxVertex))
    (p : IdxVertex) :
    in_degree (e :: E) p = in_degree E p + (if e.2 = p then 1 else 0) := by
  by_cases h : e.2 = p <;> simp [in_degree, List.filter_cons, h]

lemma processed_into_cons (e : IdxVertex × IdxVertex) (E : List (IdxVertex × IdxVertex))
    (em : List IdxVertex) (p : IdxVertex) :
    processed_into (e :: E) em p =
      processed_into E em p + (if e.2 = p ∧ e.1 ∈ em then 1 else 0) := by
  by_cases h : e.2 = p ∧ e.1 ∈ em <;> simp [processed_into, List.filter_cons, h]

lemma count_v_src_edges (E : List (IdxVertex × IdxVertex)) (u p : IdxVertex) :
    count_v (src_edges E u) p = edge_count E u p := by
  induction E with
  | nil => rfl
  | cons e E ih =>
    rw [src_edges_cons, count_v_append, edge_count_cons, ih]
    by_cases h1 : e.1 = u <;> by_cases h2 : e.2 = p <;>
      simp [h1, h2, count_v_cons, count_v_nil] <;> omega

lemma processed_le_in_degree (E : List (IdxVertex × IdxVertex)) (em : List IdxVertex)
    (p : IdxVertex) : processed_into E em p ≤ in_degree E p := by
  refine List.Sublist.length_le (List.monotone_filter_right E ?_)
  intro e he
  simp only [decide_eq_true_eq] at he ⊢
  exact he.1

lemma processed_add_edge_count_le (E : List (IdxVertex × IdxVertex)) (em : List IdxVertex)
    (u p : IdxVertex) (hu : u ∉ em) :
    processed_into E em p + edge_count E u p ≤ in_degree E p := by
  induction E with
  | nil => simp [processed_into, edge_count, in_degree]
  | cons e E ih =>
    rw [processed_into_cons, edge_count_cons, in_degree_cons]
    by_cases h1 : e.2 = p <;> by_cases h2 : e.1 ∈ em <;> by_cases h3 : e.1 = u
    · exact absurd (h3 ▸ h2) hu
    all_goals simp [h1, h2, h3, hu] <;> omega

lemma processed_into_append (E : List (IdxVertex × IdxVertex)) (em : List IdxVertex)
    (u p : IdxVertex) (hu : u ∉ em) :
    processed_into E (em ++ [u]) p = processed_into E em p + edge_count E u p := by
  induction E with
  | nil => simp [processed_into, edge_count]
  | cons e E ih =>
    rw [processed_into_cons, processed_into_cons, edge_count_cons, ih]
    have hmem : e.1 ∈ em ++ [u] ↔ e.1 ∈ em ∨ e.1 = u := by
      simp
    by_cases h1 : e.2 = p <;> by_cases h2 : e.1 ∈ em <;> by_cases h3 : e.1 = u
    · exact absurd (h3 ▸ h2) hu
    all_goals simp [h1, h2, h3, hmem, hu] <;> omega

lemma processed_eq_of_all_src (E : List (IdxVertex × IdxVertex)) (em : List IdxVertex)
    (p : IdxVertex) (h : ∀ e ∈ E, e.2 = p → e.1 ∈ em) :
    processed_into E em p = in_degree E p := by
  unfold processed_into in_degree
  congr 1
  refine List.filter_congr ?_
  intro e he
  by_cases h1 : e.2 = p
  · simp [h1, h e he h1]
  · simp [h1]

lemma all_src_of_processed_eq (E : List (IdxVertex × IdxVertex)) (em : List IdxVertex)
    (p : IdxVertex) (h : processed_into E em p = in_degree E p) :
    ∀ e ∈ E, e.2 = p → e.1 ∈ em := by
  have hsub : List.Sublist (E.filter (fun e => e.2 = p ∧ e.1 ∈ em))
      (E.filter (fun e => e.2 = p)) := by
    refine List.monotone_filter_right E ?_
    intro e he
    simp only [decide_eq_true_eq] at he ⊢
    exact he.1
  have heq := hsub.eq_of_length h
  intro e he hp
  have : e ∈ E.filter (fun e => e.2 = p) := by
    simp [List.mem_filter, he, hp]
  rw [← heq] at this
  simp only [List.mem_filter, decide_eq_true_eq] at this
  exact this.2.2

lemma mem_src_edges (E : List (IdxVertex × IdxVertex)) (u d : IdxVertex) :
    d ∈ src_edges E u ↔ ∃ e ∈ E, e.1 = u ∧ e.2 = d := by
  simp only [src_edges, List.mem_map, List.mem_filter, decide_eq_true_eq]
  constructor
  · rintro ⟨e, ⟨he, h1⟩, h2⟩
    exact ⟨e, he, h1, h2⟩
  · rintro ⟨e, he, h1, h2⟩
    exact ⟨e, ⟨he, h1⟩, h2⟩

/-! ### The drain-loop invariant -/

lemma touch_eq_push (g : DependencyGraph) (a b : Nat)
    (h : g.dfsStatus a b - 1 = 0) :
    touch_neighbor g a b =
      push_vertex { g with dfsStatus := upd2 g.dfsStatus a b (g.dfsStatus a b - 1) } a b := by
  unfold touch_neighbor
  dsimp only
  rw [if_pos (show (upd2 g.dfsStatus a b (g.dfsStatus a b - 1)) a b = 0 from by
    rw [upd2_self]; exact h)]

lemma touch_eq_nopush (g : DependencyGraph) (a b : Nat)
    (h : ¬ g.dfsStatus a b - 1 = 0) :
    touch_neighbor g a b =
      { g with dfsStatus := upd2 g.dfsStatus a b (g.dfsStatus a b - 1) } := by
  unfold touch_neighbor
  dsimp only
  rw [if_neg (show ¬ (upd2 g.dfsStatus a b (g.dfsStatus a b - 1)) a b = 0 from by
    rw [upd2_self]; exact h)]

lemma queue_view_set_dfs (g : DependencyGraph) (f : Nat → Nat → Int) :
    queue_view { g with dfsStatus := f } = queue_view g := rfl

/-- Invariant holding while the inner loop of
`_decrease_incoming_edge_counter_from_node_neighbors` processes the outgoing
edges of the just-popped unit `u`: `em` is the index-level view of the units
emitted before `u`, and `done` the prefix of `u`'s destination list already
decremented. -/
structure MidInv (S : List (List Nat)) (E : List (IdxVertex × IdxVertex)) (u : IdxVertex)
    (em : List IdxVertex) (done : List IdxVertex) (g : DependencyGraph) : Prop where
  wf : Wf S E g
  q_nodup : (queue_view g).Nodup
  q_valid : ∀ p ∈ queue_view g, valid_idx S p
  q_fresh : ∀ p ∈ queue_view g, p ∉ em ∧ p ≠ u
  dfs_eq : ∀ p : IdxVertex, valid_idx S p → g.dfsStatus p.1 p.2 =
    (in_degree E p : Int) - (processed_into E em p : Int) - (count_v done p : Int)
  q_done : ∀ p ∈ queue_view g, processed_into E em p + count_v done p = in_degree E p
  ready_q : ∀ p : IdxVertex, valid_idx S p → p ∉ em → p ≠ u →
    processed_into E em p + count_v done p = in_degree E p → p ∈ queue_view g

/-- Facts about the emitted prefix and the popped unit that stay fixed during
the inner loop. -/
structure EmCtx (S : List (List Nat)) (E : List (IdxVertex × IdxVertex))
    (em : List IdxVertex) (u : IdxVertex) : Prop where
  ev : ∀ e ∈ E, valid_idx S e.1 ∧ valid_idx S e.2
  em_settled : ∀ p ∈ em, processed_into E em p = in_degree E p
  u_settled : processed_into E em u = in_degree E u
  u_fresh : u ∉ em

lemma count_v_single (d p : IdxVertex) : count_v [d] p = if d = p then 1 else 0 := by
  by_cases h : d = p <;> simp [count_v, List.filter_cons, h]

lemma touch_mid {S : List (List Nat)} {E : List (IdxVertex × IdxVertex)} {u : IdxVertex}
    {em : List IdxVertex} (ctx : EmCtx S E em u) (done : List IdxVertex) (d : IdxVertex)
    (hsplit : ∃ rest, src_edges E u = done ++ d :: rest)
    {g : DependencyGraph} (inv : MidInv S E u em done g) :
    MidInv S E u em (done ++ [d]) (touch_neighbor g d.1 d.2) := by
  obtain ⟨rest, hsplit⟩ := hsplit
  have hd_mem : d ∈ src_edges E u := by rw [hsplit]; simp
  have hd_valid : valid_idx S d := by
    obtain ⟨e, he, h1, h2⟩ := (mem_src_edges E u d).mp hd_mem
    exact h2 ▸ (ctx.ev e he).2
  have hcount_lt : count_v done d + 1 ≤ edge_count E u d := by
    rw [← count_v_src_edges, hsplit, count_v_append, count_v_cons]
    simp
  have hcnt_new : ∀ p, count_v (done ++ [d]) p =
      count_v done p + (if d = p then 1 else 0) := by
    intro p
    rw [count_v_append, count_v_single]
  have hbound : ∀ p, processed_into E em p + edge_count E u p ≤ in_degree E p :=
    fun p => processed_add_edge_count_le E em u p ctx.u_fresh
  have hd_unproc : processed_into E em d + count_v done d < in_degree E d := by
    have h1 := hbound d
    omega
  have hd_notq : d ∉ queue_view g := by
    intro hmem
    have := inv.q_done d hmem
    omega
  have hd_nem : d ∉ em := by
    intro hmem
    have h1 := ctx.em_settled d hmem
    omega
  have hd_ne_u : d ≠ u := by
    intro hmem
    have h1 := ctx.u_settled
    rw [← hmem] at h1
    omega
  have hdfs_d : g.dfsStatus d.1 d.2 =
      (in_degree E d : Int) - (processed_into E em d : Int) - (count_v done d : Int) :=
    inv.dfs_eq d hd_valid
  have hne_of_ne : ∀ p : IdxVertex, p ≠ d → ¬(p.1 = d.1 ∧ p.2 = d.2) := by
    intro p hp hc
    exact hp (Prod.ext hc.1 hc.2)
  by_cases hz : g.dfsStatus d.1 d.2 - 1 = 0
  · -- the destination's status reaches zero: it is pushed
    rw [touch_eq_push g d.1 d.2 hz]
    have hd_done : processed_into E em d + count_v (done ++ [d]) d = in_degree E d := by
      rw [hcnt_new d, if_pos rfl]
      rw [hdfs_d] at hz
      omega
    have hq' : queue_view (push_vertex
        { g with dfsStatus := upd2 g.dfsStatus d.1 d.2 (g.dfsStatus d.1 d.2 - 1) } d.1 d.2) =
        queue_view g ++ [d] := by
      rw [queue_view_push, queue_view_set_dfs]
    refine ⟨?_, ?_, ?_, ?_, ?_, ?_, ?_⟩
    · exact wf_of_eqcore inv.wf ((eqcore_push _ _ _).comp ⟨rfl, rfl, rfl, rfl, rfl, rfl, rfl⟩)
    · rw [hq', List.nodup_append_comm, List.singleton_append]
      exact List.nodup_cons.mpr ⟨hd_notq, inv.q_nodup⟩
    · rw [hq']
      intro p hp
      rcases List.mem_append.mp hp with h | h
      · exact inv.q_valid p h
      · rw [List.mem_singleton.mp h]
        exact hd_valid
    · rw [hq']
      intro p hp
      rcases List.mem_append.mp hp with h | h
      · exact inv.q_fresh p h
      · rw [List.mem_singleton.mp h]
        exact ⟨hd_nem, hd_ne_u⟩
    · intro p hv
      show (upd2 g.dfsStatus d.1 d.2 (g.dfsStatus d.1 d.2 - 1)) p.1 p.2 = _
      by_cases h : p = d
      · subst h
        rw [upd2_self, hcnt_new, if_pos rfl, hdfs_d]
        push_cast
        ring
      · rw [upd2_ne _ _ _ _ _ _ (hne_of_ne p h), hcnt_new,
          if_neg (fun hc => h hc.symm), inv.dfs_eq p hv]
        push_cast
        ring
    · rw [hq']
      intro p hp
      rcases List.mem_append.mp hp with h | h
      · have hpd : p ≠ d := fun hc => hd_notq (hc ▸ h)
        rw [hcnt_new, if_neg (fun hc => hpd hc.symm)]
        have := inv.q_done p h
        omega
      · rw [List.mem_singleton.mp h]
        exact hd_done
    · intro p hv h1 h2 h3
      rw [hq']
      by_cases h : p = d
      · rw [h]
        simp
      · rw [hcnt_new, if_neg (fun hc => h hc.symm)] at h3
        refine List.mem_append.mpr (Or.inl ?_)
        exact inv.ready_q p hv h1 h2 (by omega)
  · -- the destination's status stays nonzero: nothing is pushed
    rw [touch_eq_nopush g d.1 d.2 hz]
    refine ⟨?_, ?_, ?_, ?_, ?_, ?_, ?_⟩
    · exact wf_of_eqcore inv.wf ⟨rfl, rfl, rfl, rfl, rfl, rfl, rfl⟩
    · rw [queue_view_set_dfs]
      exact inv.q_nodup
    · rw [queue_view_set_dfs]
      exact inv.q_valid
    · rw [queue_view_set_dfs]
      exact inv.q_fresh
    · intro p hv
      show (upd2 g.dfsStatus d.1 d.2 (g.dfsStatus d.1 d.2 - 1)) p.1 p.2 = _
      by_cases h : p = d
      · subst h
        rw [upd2_self, hcnt_new, if_pos rfl, hdfs_d]
        push_cast
        ring
      · rw [upd2_ne _ _ _ _ _ _ (hne_of_ne p h), hcnt_new,
          if_neg (fun hc => h hc.symm), inv.dfs_eq p hv]
        push_cast
        ring
    · rw [queue_view_set_dfs]
      intro p hp
      have hpd : p ≠ d := fun hc => hd_notq (hc ▸ hp)
      rw [hcnt_new, if_neg (fun hc => hpd hc.symm)]
      have := inv.q_done p hp
      omega
    · intro p hv h1 h2 h3
      rw [queue_view_set_dfs]
      by_cases h : p = d
      · exfalso
        subst h
        rw [hcnt_new, if_pos rfl] at h3
        apply hz
        rw [hdfs_d]
        push_cast
        omega
      · rw [hcnt_new, if_neg (fun hc => h hc.symm)] at h3
        exact inv.ready_q p hv h1 h2 (by omega)

lemma fold_touch_mid {S : List (List Nat)} {E : List (IdxVertex × IdxVertex)} {u : IdxVertex}
    {em : List IdxVertex} (ctx : EmCtx S E em u) (todo : List IdxVertex) :
    ∀ (done : List IdxVertex) (g : DependencyGraph),
      (∃ rest, src_edges E u = done ++ todo ++ rest) →
      MidInv S E u em done g →
      MidInv S E u em (done ++ todo)
        (todo.foldl (fun g1 d => touch_neighbor g1 d.1 d.2) g) := by
  induction todo with
  | nil =>
    intro done g _ inv
    simpa using inv
  | cons d todo ih =>
    intro done g hsplit inv
    obtain ⟨rest, hsplit⟩ := hsplit
    have step := touch_mid ctx done d ⟨todo ++ rest, by rw [hsplit]; simp⟩ inv
    have h' : ∃ rest2, src_edges E u = (done ++ [d]) ++ todo ++ rest2 := ⟨rest, by
      rw [hsplit]
      simp⟩
    have hmain := ih (done ++ [d]) _ h' step
    rw [List.foldl_cons]
    simpa [List.append_assoc] using hmain

/-- The inner loop reads the destination of edge slot `i` from the (unchanged)
tables, so it equals a fold over the recorded destination list. -/
lemma fold_touch_tables (a b : Nat) (ds : List IdxVertex) :
    ∀ (k : Nat) (g : DependencyGraph),
      (∀ j, j < ds.length → g.outLayer a b (k + j) = Int.ofNat ((ds.getD j (0, 0)).1) ∧
        g.outSpatial a b (k + j) = Int.ofNat ((ds.getD j (0, 0)).2)) →
      (List.range' k ds.length).foldl
        (fun g1 i => touch_neighbor g1 (g1.outLayer a b i).toNat (g1.outSpatial a b i).toNat) g =
      ds.foldl (fun g1 d => touch_neighbor g1 d.1 d.2) g := by
  induction ds with
  | nil => intro k g _; rfl
  | cons d ds ih =>
    intro k g h
    rw [List.length_cons, show List.range' k (ds.length + 1) = k :: List.range' (k+1) ds.length
      from rfl, List.foldl_cons, List.foldl_cons]
    have h0 := h 0 (by simp)
    simp only [Nat.add_zero, List.getD_cons_zero] at h0
    rw [h0.1, h0.2]
    have htn : (Int.ofNat d.1).toNat = d.1 := rfl
    have htn2 : (Int.ofNat d.2).toNat = d.2 := rfl
    rw [htn, htn2]
    refine ih (k + 1) (touch_neighbor g d.1 d.2) ?_
    intro j hj
    have hL : (touch_neighbor g d.1 d.2).outLayer = g.outLayer := (eqcore_touch g d.1 d.2).outL
    have hS : (touch_neighbor g d.1 d.2).outSpatial = g.outSpatial :=
      (eqcore_touch g d.1 d.2).outS
    rw [hL, hS, show k + 1 + j = k + (j + 1) from by omega]
    have := h (j + 1) (by rw [List.length_cons]; omega)
    simpa using this

lemma dec_eq_fold_dsts {S : List (List Nat)} {E : List (IdxVertex × IdxVertex)}
    {g : DependencyGraph} (wf : Wf S E g) (a b : Nat) :
    decrease_incoming_edge_counter_from_node_neighbors g a b =
      (src_edges E (a, b)).foldl (fun g1 d => touch_neighbor g1 d.1 d.2) g := by
  unfold decrease_incoming_edge_counter_from_node_neighbors
  rw [wf.out_count a b, List.range_eq_range']
  refine fold_touch_tables a b (src_edges E (a, b)) 0 g ?_
  intro j hj
  constructor
  · simpa using wf.table_layer a b j hj
  · simpa using wf.table_spatial a b j hj

/-- Position of the first occurrence of `a` in `l` (length of `l` when
absent). -/
def idx_in {α : Type} [DecidableEq α] (l : List α) (a : α) : Nat :=
  match l with
  | [] => 0
  | q :: l => if q = a then 0 else idx_in l a + 1

lemma idx_in_lt_length {α : Type} [DecidableEq α] (l : List α) (a : α) (h : a ∈ l) :
    idx_in l a < l.length := by
  induction l with
  | nil => simp at h
  | cons q l ih =>
    by_cases hq : q = a
    · simp [idx_in, hq]
    · have : a ∈ l := by
        rcases List.mem_cons.mp h with h1 | h1
        · exact absurd h1.symm hq
        · exact h1
      simp only [idx_in, if_neg hq, List.length_cons]
      exact Nat.succ_lt_succ (ih this)

lemma idx_in_append_of_mem {α : Type} [DecidableEq α] (l t : List α) (a : α) (h : a ∈ l) :
    idx_in (l ++ t) a = idx_in l a := by
  induction l with
  | nil => simp at h
  | cons q l ih =>
    by_cases hq : q = a
    · simp [idx_in, hq]
    · have : a ∈ l := by
        rcases List.mem_cons.mp h with h1 | h1
        · exact absurd h1.symm hq
        · exact h1
      simp only [List.cons_append, idx_in, if_neg hq]
      exact congrArg (· + 1) (ih this)

lemma idx_in_concat_self {α : Type} [DecidableEq α] (l : List α) (a : α) (h : a ∉ l) :
    idx_in (l ++ [a]) a = l.length := by
  induction l with
  | nil => simp [idx_in]
  | cons q l ih =>
    have hq : q ≠ a := fun hc => h (hc ▸ List.mem_cons_self q l)
    have h2 : a ∉ l := fun hc => h (List.mem_cons_of_mem q hc)
    simp only [List.cons_append, idx_in, if_neg hq, List.length_cons]
    exact congrArg (· + 1) (ih h2)

lemma idx_in_map_of_inj {α β : Type} [DecidableEq α] [DecidableEq β] (f : α → β)
    (l : List α) (a : α) (hinj : ∀ x ∈ l, f x = f a → x = a) :
    idx_in (l.map f) (f a) = idx_in l a := by
  induction l with
  | nil => rfl
  | cons q l ih =>
    by_cases hq : q = a
    · simp [idx_in, hq]
    · have hfq : f q ≠ f a := fun hc => hq (hinj q (List.mem_cons_self q l) hc)
      simp only [List.map_cons, idx_in, if_neg hq, if_neg hfq]
      rw [ih (fun x hx => hinj x (List.mem_cons_of_mem q hx))]

/-- Invariant between iterations of the drain loop: `em` is the index-level
view of the emitted sequence so far. -/
structure DrainInv (S : List (List Nat)) (E : List (IdxVertex × IdxVertex))
    (g : DependencyGraph) (em : List IdxVertex) : Prop where
  wf : Wf S E g
  em_nodup : em.Nodup
  em_valid : ∀ p ∈ em, valid_idx S p
  q_nodup : (queue_view g).Nodup
  q_valid : ∀ p ∈ queue_view g, valid_idx S p
  q_fresh : ∀ p ∈ queue_view g, p ∉ em
  dfs_eq : ∀ p : IdxVertex, valid_idx S p → g.dfsStatus p.1 p.2 =
    (in_degree E p : Int) - (processed_into E em p : Int)
  q_done : ∀ p ∈ queue_view g, processed_into E em p = in_degree E p
  ready_q : ∀ p : IdxVertex, valid_idx S p → p ∉ em →
    processed_into E em p = in_degree E p → p ∈ queue_view g
  order : ∀ e ∈ E, e.2 ∈ em → e.1 ∈ em ∧ idx_in em e.1 < idx_in em e.2

lemma em_settled_of_order {S : List (List Nat)} {E : List (IdxVertex × IdxVertex)}
    {g : DependencyGraph} {em : List IdxVertex} (inv : DrainInv S E g em) :
    ∀ p ∈ em, processed_into E em p = in_degree E p := by
  intro p hp
  refine processed_eq_of_all_src E em p ?_
  intro e he h2
  exact (inv.order e he (by rw [h2]; exact hp)).1

lemma drain_inv_length_le {S : List (List Nat)} {E : List (IdxVertex × IdxVertex)}
    {g : DependencyGraph} {em : List IdxVertex} (inv : DrainInv S E g em) :
    em.length + g.queueLen ≤ (S.map List.prod).sum := by
  have hnodup : (em ++ queue_view g).Nodup := by
    rw [List.nodup_append]
    exact ⟨inv.em_nodup, inv.q_nodup, fun p hp hq => inv.q_fresh p hq hp⟩
  have hsubset : em ++ queue_view g ⊆ all_vertices S := by
    intro p hp
    rcases List.mem_append.mp hp with h | h
    · exact (mem_all_vertices S p).mpr (inv.em_valid p h)
    · exact (mem_all_vertices S p).mpr (inv.q_valid p h)
  have := (List.subperm_of_subset hnodup hsubset).length_le
  rw [List.length_append, queue_view_length, length_all_vertices] at this
  exact this

/-- The sequence actually returned by the sort, as the decoded view of the
index-level emitted list. -/
def located (S : List (List Nat)) (em : List IdxVertex) : List Vertex :=
  em.map (fun p => (p.1, spatial_index_to_location (S.getD p.1 []) p.2))

lemma drain_step_inv {S : List (List Nat)} {E : List (IdxVertex × IdxVertex)}
    {g : DependencyGraph} {em : List IdxVertex}
    (ev : ∀ e ∈ E, valid_idx S e.1 ∧ valid_idx S e.2)
    (inv : DrainInv S E g em) (hq : g.queueLen ≠ 0)
    (a b : Nat) (ha : a = (g.queueLayer (g.queueLen - 1)).toNat)
    (hb : b = (g.queueSpatial (g.queueLen - 1)).toNat) :
    DrainInv S E (drain_step g (located S em)).1 (em ++ [(a, b)]) ∧
    (drain_step g (located S em)).2 = located S (em ++ [(a, b)]) := by
  have hstep1 : (drain_step g (located S em)).1 =
      decrease_incoming_edge_counter_from_node_neighbors
        { g with queueLen := g.queueLen - 1 } a b := by
    rw [ha, hb]
    rfl
  have hstep2 : (drain_step g (located S em)).2 =
      located S em ++ [(a, spatial_index_to_location (g.layersShape.getD a []) b)] := by
    rw [ha, hb]
    rfl
  have hQ : queue_view g = queue_view { g with queueLen := g.queueLen - 1 } ++ [(a, b)] := by
    rw [ha, hb]
    exact queue_view_pop g hq
  have hu_mem : (a, b) ∈ queue_view g := by rw [hQ]; simp
  have hu_valid := inv.q_valid (a, b) hu_mem
  have hu_fresh := inv.q_fresh (a, b) hu_mem
  have hu_settled := inv.q_done (a, b) hu_mem
  have hpop_nodup : ((a, b) :: queue_view { g with queueLen := g.queueLen - 1 }).Nodup := by
    have h1 := inv.q_nodup
    rw [hQ, List.nodup_append_comm, List.singleton_append] at h1
    exact h1
  have hu_npop : (a, b) ∉ queue_view { g with queueLen := g.queueLen - 1 } :=
    (List.nodup_cons.mp hpop_nodup).1
  have hQpop_nodup : (queue_view { g with queueLen := g.queueLen - 1 }).Nodup :=
    (List.nodup_cons.mp hpop_nodup).2
  have hwf_pop : Wf S E { g with queueLen := g.queueLen - 1 } :=
    wf_of_eqcore inv.wf ⟨rfl, rfl, rfl, rfl, rfl, rfl, rfl⟩
  have ctx : EmCtx S E em (a, b) :=
    ⟨ev, em_settled_of_order inv, hu_settled, hu_fresh⟩
  have mid0 : MidInv S E (a, b) em [] { g with queueLen := g.queueLen - 1 } := by
    refine ⟨hwf_pop, hQpop_nodup, ?_, ?_, ?_, ?_, ?_⟩
    · intro p hp
      exact inv.q_valid p (by rw [hQ]; exact List.mem_append.mpr (Or.inl hp))
    · intro p hp
      refine ⟨inv.q_fresh p (by rw [hQ]; exact List.mem_append.mpr (Or.inl hp)), ?_⟩
      intro hc
      exact hu_npop (hc ▸ hp)
    · intro p hv
      show g.dfsStatus p.1 p.2 = _
      rw [inv.dfs_eq p hv, count_v_nil]
      push_cast
      ring
    · intro p hp
      rw [count_v_nil]
      have := inv.q_done p (by rw [hQ]; exact List.mem_append.mpr (Or.inl hp))
      omega
    · intro p hv h1 h2 h3
      rw [count_v_nil] at h3
      have := inv.ready_q p hv h1 (by omega)
      rw [hQ] at this
      rcases List.mem_append.mp this with h | h
      · exact h
      · exact absurd (List.mem_singleton.mp h) h2
  have midF := fold_touch_mid ctx (src_edges E (a, b)) [] _ ⟨[], by simp⟩ mid0
  rw [List.nil_append] at midF
  have hfold : (drain_step g (located S em)).1 =
      (src_edges E (a, b)).foldl (fun g1 d => touch_neighbor g1 d.1 d.2)
        { g with queueLen := g.queueLen - 1 } := by
    rw [hstep1]
    exact dec_eq_fold_dsts hwf_pop a b
  have hcnt : ∀ p, count_v (src_edges E (a, b)) p = edge_count E (a, b) p :=
    count_v_src_edges E (a, b)
  have hproc : ∀ p, processed_into E (em ++ [(a, b)]) p =
      processed_into E em p + edge_count E (a, b) p :=
    fun p => processed_into_append E em (a, b) p hu_fresh
  have hmem_em' : ∀ p : IdxVertex, p ∈ em ++ [(a, b)] ↔ p ∈ em ∨ p = (a, b) := by
    intro p
    simp
  constructor
  · rw [hfold]
    refine ⟨midF.wf, ?_, ?_, midF.q_nodup, midF.q_valid, ?_, ?_, ?_, ?_, ?_⟩
    · rw [List.nodup_append_comm, List.singleton_append]
      exact List.nodup_cons.mpr ⟨hu_fresh, inv.em_nodup⟩
    · intro p hp
      rcases (hmem_em' p).mp hp with h | h
      · exact inv.em_valid p h
      · rw [h]
        exact hu_valid
    · intro p hp
      have := midF.q_fresh p hp
      rw [hmem_em']
      tauto
    · intro p hv
      rw [midF.dfs_eq p hv, hproc, hcnt]
      push_cast
      ring
    · intro p hp
      have hpd := midF.q_done p hp
      rw [hcnt p] at hpd
      rw [hproc]
      omega
    · intro p hv h1
      rw [hmem_em'] at h1
      push_neg at h1
      intro h3
      rw [hproc] at h3
      refine midF.ready_q p hv h1.1 h1.2 ?_
      rw [hcnt]
      omega
    · intro e he h2
      rw [hmem_em'] at h2
      rcases h2 with h2 | h2
      · obtain ⟨hm, hidx⟩ := inv.order e he h2
        refine ⟨(hmem_em' e.1).mpr (Or.inl hm), ?_⟩
        rw [idx_in_append_of_mem em _ e.1 hm, idx_in_append_of_mem em _ e.2 h2]
        exact hidx
      · have hsrc : e.1 ∈ em :=
          all_src_of_processed_eq E em (a, b) hu_settled e he h2
        refine ⟨(hmem_em' e.1).mpr (Or.inl hsrc), ?_⟩
        rw [idx_in_append_of_mem em _ e.1 hsrc, h2, idx_in_concat_self em _ hu_fresh]
        exact idx_in_lt_length em e.1 hsrc
  · rw [hstep2, located, located, List.map_append, inv.wf.shapes]
    rfl

lemma drain_loop_inv {S : List (List Nat)} {E : List (IdxVertex × IdxVertex)}
    (ev : ∀ e ∈ E, valid_idx S e.1 ∧ valid_idx S e.2) :
    ∀ (fuel : Nat) (g : DependencyGraph) (em : List IdxVertex), DrainInv S E g em →
    ∃ em', DrainInv S E (drain_loop fuel g (located S em)).1 em' ∧
      (drain_loop fuel g (located S em)).2 = located S em' ∧
      ((S.map List.prod).sum ≤ em.length + fuel →
        (drain_loop fuel g (located S em)).1.queueLen = 0) := by
  intro fuel
  induction fuel with
  | zero =>
    intro g em inv
    refine ⟨em, inv, rfl, ?_⟩
    intro hV
    have := drain_inv_length_le inv
    show g.queueLen = 0
    omega
  | succ fuel ih =>
    intro g em inv
    rw [drain_loop]
    by_cases hq : g.queueLen = 0
    · rw [if_pos hq]
      exact ⟨em, inv, rfl, fun _ => hq⟩
    · rw [if_neg hq]
      obtain ⟨hinv', hres'⟩ := drain_step_inv ev inv hq _ _ rfl rfl
      obtain ⟨em', h1, h2, h3⟩ := ih (drain_step g (located S em)).1
        (em ++ [((g.queueLayer (g.queueLen - 1)).toNat,
          (g.queueSpatial (g.queueLen - 1)).toNat)]) hinv'
      rw [← hres'] at h1 h2 h3
      have hlen : (em ++ [((g.queueLayer (g.queueLen - 1)).toNat,
          (g.queueSpatial (g.queueLen - 1)).toNat)]).length = em.length + 1 := by simp
      exact ⟨em', h1, h2, fun hV => h3 (by rw [hlen]; omega)⟩

lemma initial_drain_inv {S : List (List Nat)} {E : List (IdxVertex × IdxVertex)}
    {g : DependencyGraph} (wf : Wf S E g) :
    DrainInv S E (add_vertices_with_zero_incoming_degree_to_queue (reset_dfs_status g)) [] := by
  obtain ⟨hqv, hdfs⟩ := seed_spec (reset_dfs_status g)
  rw [reset_queue_view, List.nil_append] at hqv
  have hsh : (reset_dfs_status g).layersShape = S := wf.shapes
  rw [hsh] at hqv
  have hdfs0 : ∀ p : IdxVertex, (reset_dfs_status g).dfsStatus p.1 p.2 =
      (in_degree E p : Int) := by
    intro p
    show (g.inCount p.1 p.2 : Int) = _
    have h5 : g.inCount p.1 p.2 = in_degree E p := wf.in_count p.1 p.2
    rw [h5]
  have hQ : queue_view (add_vertices_with_zero_incoming_degree_to_queue (reset_dfs_status g)) =
      (all_vertices S).filter
        (fun p => (reset_dfs_status g).dfsStatus p.1 p.2 = 0) := hqv
  have hmemQ : ∀ p : IdxVertex,
      p ∈ queue_view (add_vertices_with_zero_incoming_degree_to_queue (reset_dfs_status g)) ↔
      (valid_idx S p ∧ in_degree E p = 0) := by
    intro p
    rw [hQ, List.mem_filter]
    constructor
    · rintro ⟨h1, h2⟩
      refine ⟨(mem_all_vertices S p).mp h1, ?_⟩
      have h3 := of_decide_eq_true h2
      rw [hdfs0 p] at h3
      exact_mod_cast h3
    · rintro ⟨h1, h2⟩
      refine ⟨(mem_all_vertices S p).mpr h1, ?_⟩
      refine decide_eq_true ?_
      rw [hdfs0 p, h2]
      rfl
  refine ⟨?_, List.nodup_nil, ?_, ?_, ?_, ?_, ?_, ?_, ?_, ?_⟩
  · exact wf_of_eqcore wf ((eqcore_seed _).comp (eqcore_reset g))
  · intro p hp
    simp at hp
  · rw [hQ]
    exact (all_vertices_nodup S).filter _
  · intro p hp
    exact ((hmemQ p).mp hp).1
  · intro p hp
    simp
  · intro p hv
    have h1 : (add_vertices_with_zero_incoming_degree_to_queue
        (reset_dfs_status g)).dfsStatus p.1 p.2 = (reset_dfs_status g).dfsStatus p.1 p.2 := by
      rw [hdfs]
    rw [h1, hdfs0 p, processed_into_nil]
    push_cast
    ring
  · intro p hp
    rw [processed_into_nil, ((hmemQ p).mp hp).2]
  · intro p hv _ h3
    rw [processed_into_nil] at h3
    exact (hmemQ p).mpr ⟨hv, h3.symm⟩
  · intro e _ h2
    simp at h2

lemma sort_core_spec {S : List (List Nat)} {E : List (IdxVertex × IdxVertex)}
    (ev : ∀ e ∈ E, valid_idx S e.1 ∧ valid_idx S e.2)
    {g : DependencyGraph} (wf : Wf S E g) :
    ∃ em, DrainInv S E (topological_sort_core g).1 em ∧
      (topological_sort_core g).2 = located S em ∧
      (topological_sort_core g).1.queueLen = 0 := by
  have inv0 := initial_drain_inv wf
  obtain ⟨em, h1, h2, h3⟩ := drain_loop_inv ev g.verticesCounter
    (add_vertices_with_zero_incoming_degree_to_queue (reset_dfs_status g)) [] inv0
  refine ⟨em, h1, h2, ?_⟩
  refine h3 ?_
  rw [List.length_nil, Nat.zero_add, ← wf.vcount]

/-! ### Acyclicity and the termination dichotomy -/

/-- A finite set every member of which has an `R`-predecessor inside the set
yields a cycle; contrapositive form. -/
lemma no_pred_closed_list {α : Type} (R : α → α → Prop)
    (hnc : ∀ v, ¬ Relation.TransGen R v v) :
    ∀ (n : Nat) (U : List α), U.length ≤ n →
      (∀ u ∈ U, ∃ u', u' ∈ U ∧ R u' u) → U = [] := by
  intro n
  induction n with
  | zero =>
    intro U h _
    exact List.length_eq_zero.mp (by omega)
  | succ n ih =>
    intro U hlen hpred
    cases hU : U with
    | nil => rfl
    | cons u0 U0 =>
      exfalso
      classical
      rw [hU] at hlen hpred
      set V := (u0 :: U0).filter (fun x => decide (Relation.TransGen R x u0)) with hV
      have hVsub : V ⊆ u0 :: U0 := by
        rw [hV]
        exact fun x hx => List.mem_of_mem_filter hx
      have hu0V : u0 ∉ V := by
        intro hmem
        rw [hV] at hmem
        exact hnc u0 (of_decide_eq_true ((List.mem_filter.mp hmem).2))
      have hVlen : V.length ≤ n := by
        have h1 : V.length ≤ (u0 :: U0).length := by
          rw [hV]
          exact List.length_filter_le _ _
        have h2 : V.length ≠ (u0 :: U0).length := by
          intro hc
          rw [hV] at hc
          have := List.filter_length_eq_length.mp hc u0 (List.mem_cons_self _ _)
          refine hu0V ?_
          rw [hV]
          exact List.mem_filter.mpr ⟨List.mem_cons_self _ _, this⟩
        simp only [List.length_cons] at h1 h2 hlen
        omega
      have hVpred : ∀ w ∈ V, ∃ w', w' ∈ V ∧ R w' w := by
        intro w hw
        have hwU : w ∈ u0 :: U0 := hVsub hw
        have hwtg : Relation.TransGen R w u0 := by
          rw [hV] at hw
          exact of_decide_eq_true ((List.mem_filter.mp hw).2)
        obtain ⟨w', hw', hR⟩ := hpred w hwU
        refine ⟨w', ?_, hR⟩
        rw [hV]
        refine List.mem_filter.mpr ⟨hw', decide_eq_true ?_⟩
        exact Relation.TransGen.head hR hwtg
      have hVnil : V = [] := ih V hVlen (by
        intro w hw
        obtain ⟨w', h1, h2⟩ := hVpred w hw
        exact ⟨w', h1, h2⟩)
      obtain ⟨u', hu', hR⟩ := hpred u0 (List.mem_cons_self _ _)
      have hfin : u' ∈ V := by
        rw [hV]
        refine List.mem_filter.mpr ⟨hu', decide_eq_true ?_⟩
        exact Relation.TransGen.single hR
      rw [hVnil] at hfin
      simp at hfin

/-- From the order invariant, a transitive dependency chain ending in an
emitted unit lies entirely among earlier emitted units. -/
lemma trans_gen_order {E : List (IdxVertex × IdxVertex)} {em : List IdxVertex}
    (ho : ∀ e ∈ E, e.2 ∈ em → e.1 ∈ em ∧ idx_in em e.1 < idx_in em e.2) :
    ∀ a b : IdxVertex, Relation.TransGen (fun x y => (x, y) ∈ E) a b → b ∈ em →
      a ∈ em ∧ idx_in em a < idx_in em b := by
  intro a b h
  induction h with
  | single h => exact fun hb => ho _ h hb
  | tail _ hbc ih =>
    intro hc
    have h1 := ho _ hbc hc
    obtain ⟨h2, h3⟩ := ih h1.1
    exact ⟨h2, lt_trans h3 h1.2⟩

/-! ### Total round-trip wrappers (covering rank-zero shapes as well) -/

lemma decode_encode (shape loc : List Nat) (h : List.Forall₂ (· < ·) loc shape) :
    spatial_index_to_location shape (get_spatial_index shape loc) = loc := by
  cases shape with
  | nil =>
    cases h
    rfl
  | cons d ds => exact spatial_index_to_location_get _ _ h (by simp)

lemma encode_lt (shape loc : List Nat) (h : List.Forall₂ (· < ·) loc shape) :
    get_spatial_index shape loc < shape.prod := by
  cases shape with
  | nil =>
    cases h
    simp [get_spatial_index]
  | cons d ds => exact get_spatial_index_lt _ _ h (by simp)

lemma encode_decode (shape : List Nat) (i : Nat) (hi : i < shape.prod) :
    get_spatial_index shape (spatial_index_to_location shape i) = i := by
  cases shape with
  | nil =>
    simp only [List.prod_nil, Nat.lt_one_iff] at hi
    subst hi
    rfl
  | cons d ds => exact get_spatial_index_to_location _ _ hi (by simp)

lemma decode_forall₂ (shape : List Nat) (i : Nat) (hi : i < shape.prod) :
    List.Forall₂ (· < ·) (spatial_index_to_location shape i) shape :=
  spatial_index_to_location_forall₂ shape i hi

/-! ### Located vertices -/

/-- A located vertex denoting an actual unit: its layer index exists and its
location lies inside the layer's recorded spatial shape. -/
def valid_vertex (S : List (List Nat)) (v : Vertex) : Prop :=
  v.1 < S.length ∧ List.Forall₂ (· < ·) v.2 (S.getD v.1 [])

instance valid_vertex_decidable (S : List (List Nat)) (v : Vertex) :
    Decidable (valid_vertex S v) :=
  inferInstanceAs (Decidable (v.1 < S.length ∧ List.Forall₂ (· < ·) v.2 (S.getD v.1 [])))

/-- Decoded view of an index-level vertex. -/
def loc_vertex (S : List (List Nat)) (p : IdxVertex) : Vertex :=
  (p.1, spatial_index_to_location (S.getD p.1 []) p.2)

lemma located_eq_map (S : List (List Nat)) (em : List IdxVertex) :
    located S em = em.map (loc_vertex S) := rfl

lemma to_index_valid (S : List (List Nat)) (v : Vertex) (h : valid_vertex S v) :
    valid_idx S (to_index S v) :=
  ⟨h.1, encode_lt _ _ h.2⟩

lemma loc_vertex_to_index (S : List (List Nat)) (v : Vertex) (h : valid_vertex S v) :
    loc_vertex S (to_index S v) = v := by
  unfold loc_vertex to_index
  obtain ⟨v1, v2⟩ := v
  simp only
  rw [decode_encode _ _ h.2]

lemma loc_vertex_valid (S : List (List Nat)) (p : IdxVertex) (h : valid_idx S p) :
    valid_vertex S (loc_vertex S p) :=
  ⟨h.1, decode_forall₂ _ _ h.2⟩

lemma to_index_loc_vertex (S : List (List Nat)) (p : IdxVertex) (h : valid_idx S p) :
    to_index S (loc_vertex S p) = p := by
  unfold loc_vertex to_index
  obtain ⟨p1, p2⟩ := p
  simp only
  rw [encode_decode _ _ h.2]

lemma loc_vertex_inj (S : List (List Nat)) (p q : IdxVertex) (hp : valid_idx S p)
    (hq : valid_idx S q) (h : loc_vertex S p = loc_vertex S q) : p = q := by
  have := congrArg (to_index S) h
  rw [to_index_loc_vertex S p hp, to_index_loc_vertex S q hq] at this
  exact this

/-! ### Assembly: the main correctness theorems -/

/-- The dependency graph contains a directed cycle (over the located edges the
caller supplied to `add_edge`). -/
def has_cycle (es : List (Vertex × Vertex)) : Prop :=
  ∃ v : Vertex, Relation.TransGen (fun a b => (a, b) ∈ es) v v

lemma acyclic_of_rank {α : Type} (R : α → α → Prop) (f : α → Nat)
    (hf : ∀ a b, R a b → f a < f b) : ∀ v, ¬ Relation.TransGen R v v := by
  intro v hv
  have : ∀ a b, Relation.TransGen R a b → f a < f b := by
    intro a b h
    induction h with
    | single h => exact hf _ _ h
    | tail _ h ih => exact lt_trans ih (hf _ _ h)
  exact lt_irrefl _ (this v v hv)

lemma transgen_first_step {α : Type} {R : α → α → Prop} {a b : α}
    (h : Relation.TransGen R a b) : ∃ c, R a c := by
  induction h with
  | single h => exact ⟨_, h⟩
  | tail _ _ ih => exact ih

lemma queue_view_eq_nil (g : DependencyGraph) (h : g.queueLen = 0) : queue_view g = [] := by
  simp [queue_view, h]

lemma count_v_cons' {α : Type} [DecidableEq α] (q : α) (l : List α) (a : α) :
    count_v (q :: l) a = count_v l a + (if q = a then 1 else 0) := by
  by_cases h : q = a <;> simp [count_v, List.filter_cons, h] <;> omega

lemma count_v_eq_zero {α : Type} [DecidableEq α] (l : List α) (a : α) (h : a ∉ l) :
    count_v l a = 0 := by
  induction l with
  | nil => rfl
  | cons q l ih =>
    have hq : q ≠ a := fun hc => h (hc ▸ List.mem_cons_self q l)
    have h2 : a ∉ l := fun hc => h (List.mem_cons_of_mem q hc)
    rw [count_v_cons', if_neg hq, ih h2]

lemma count_v_eq_one {α : Type} [DecidableEq α] (l : List α) (a : α)
    (hnd : l.Nodup) (hmem : a ∈ l) : count_v l a = 1 := by
  induction l with
  | nil => simp at hmem
  | cons q l ih =>
    obtain ⟨hq, hnd'⟩ := List.nodup_cons.mp hnd
    by_cases h : q = a
    · subst h
      rw [count_v_cons', if_pos rfl, count_v_eq_zero l q hq]
    · have : a ∈ l := by
        rcases List.mem_cons.mp hmem with h1 | h1
        · exact absurd h1.symm h
        · exact h1
      rw [count_v_cons', if_neg h, ih hnd' this]

lemma count_v_map_of_inj {α β : Type} [DecidableEq α] [DecidableEq β] (f : α → β)
    (l : List α) (a : α) (hinj : ∀ x ∈ l, f x = f a → x = a) :
    count_v (l.map f) (f a) = count_v l a := by
  induction l with
  | nil => rfl
  | cons q l ih =>
    rw [List.map_cons, count_v_cons', count_v_cons']
    have hih := ih (fun x hx => hinj x (List.mem_cons_of_mem q hx))
    by_cases hq : q = a
    · rw [if_pos hq, if_pos (congrArg f hq), hih]
    · have hfq : f q ≠ f a := fun hc => hq (hinj q (List.mem_cons_self q l) hc)
      rw [if_neg hq, if_neg hfq, hih]

lemma edges_index_valid (S : List (List Nat)) (es : List (Vertex × Vertex))
    (hval : ∀ e ∈ es, valid_vertex S e.1 ∧ valid_vertex S e.2) :
    ∀ e ∈ edges_index S es, valid_idx S e.1 ∧ valid_idx S e.2 := by
  intro e he
  obtain ⟨e0, he0, rfl⟩ := List.mem_map.mp he
  exact ⟨to_index_valid S e0.1 (hval e0 he0).1, to_index_valid S e0.2 (hval e0 he0).2⟩

/-- Master lemma for the acyclic case: run on a graph populated by `add_edge`
from an acyclic located edge list, the sort emits every unit exactly once and
respects every edge. -/
lemma sort_ok_of_acyclic (default_cap : Nat) (layers : List Layer)
    (es : List (Vertex × Vertex)) (hcap : 1 ≤ default_cap)
    (hval : ∀ e ∈ es, valid_vertex (layers.map layer_spatial_shape) e.1 ∧
      valid_vertex (layers.map layer_spatial_shape) e.2)
    (hacyc : ¬ has_cycle es) :
    ∃ res : List Vertex,
      (topological_sort (build_graph default_cap layers es)).1 = Except.ok res ∧
      res.length = (build_graph default_cap layers es).verticesCounter ∧
      (∀ v : Vertex, valid_vertex (layers.map layer_spatial_shape) v → count_v res v = 1) ∧
      (∀ e ∈ es, idx_in res e.1 < idx_in res e.2) := by
  classical
  set S := layers.map layer_spatial_shape with hS
  set E := edges_index S es with hE
  set g := build_graph default_cap layers es with hg
  have wf : Wf S E g := wf_build default_cap layers es hcap
  have ev : ∀ e ∈ E, valid_idx S e.1 ∧ valid_idx S e.2 := edges_index_valid S es hval
  obtain ⟨em, inv, hres, hq0⟩ := sort_core_spec ev wf
  -- transport acyclicity to the index level
  have hacycE : ∀ q : IdxVertex, ¬ Relation.TransGen (fun a b => (a, b) ∈ E) q q := by
    intro q hq
    refine hacyc ⟨loc_vertex S q, ?_⟩
    refine Relation.TransGen.lift (loc_vertex S) ?_ hq
    intro a b hab
    obtain ⟨e0, he0, heq⟩ := List.mem_map.mp hab
    have h1 : to_index S e0.1 = a := congrArg Prod.fst heq
    have h2 : to_index S e0.2 = b := congrArg Prod.snd heq
    rw [← h1, ← h2, loc_vertex_to_index S e0.1 (hval e0 he0).1,
      loc_vertex_to_index S e0.2 (hval e0 he0).2]
    exact he0
  -- completeness: every valid unit is emitted
  have hQnil : queue_view (topological_sort_core g).1 = [] :=
    queue_view_eq_nil _ hq0
  have hall : ∀ p : IdxVertex, valid_idx S p → p ∈ em := by
    intro p hp
    by_contra hnem
    set U := (all_vertices S).filter (fun x => decide (x ∉ em)) with hU
    have hpU : p ∈ U := by
      rw [hU]
      exact List.mem_filter.mpr ⟨(mem_all_vertices S p).mpr hp, decide_eq_true hnem⟩
    have hUpred : ∀ u ∈ U, ∃ u', u' ∈ U ∧ (u', u) ∈ E := by
      intro u hu
      rw [hU] at hu
      have hu_valid : valid_idx S u := (mem_all_vertices S u).mp (List.mem_filter.mp hu).1
      have hu_nem : u ∉ em := of_decide_eq_true (List.mem_filter.mp hu).2
      have hnready : processed_into E em u ≠ in_degree E u := by
        intro hc
        have := inv.ready_q u hu_valid hu_nem hc
        rw [hQnil] at this
        simp at this
      have hex : ∃ e ∈ E, e.2 = u ∧ e.1 ∉ em := by
        by_contra hc
        push_neg at hc
        exact hnready (processed_eq_of_all_src E em u (fun e he h2 => hc e he h2))
      obtain ⟨e, he, h2, h3⟩ := hex
      refine ⟨e.1, ?_, ?_⟩
      · rw [hU]
        refine List.mem_filter.mpr ⟨(mem_all_vertices S e.1).mpr (ev e he).1,
          decide_eq_true h3⟩
      · rw [← h2]
        exact he
    have hUnil : U = [] := no_pred_closed_list _ hacycE U.length U (le_refl _) hUpred
    rw [hUnil] at hpU
    simp at hpU
  -- the emitted list is a permutation of all units
  have hem_sub : em ⊆ all_vertices S := fun p hp =>
    (mem_all_vertices S p).mpr (inv.em_valid p hp)
  have hall_sub : all_vertices S ⊆ em := fun p hp =>
    hall p ((mem_all_vertices S p).mp hp)
  have hlen1 : em.length ≤ (all_vertices S).length :=
    (List.subperm_of_subset inv.em_nodup hem_sub).length_le
  have hlen2 : (all_vertices S).length ≤ em.length :=
    (List.subperm_of_subset (all_vertices_nodup S) hall_sub).length_le
  have hlen : em.length = (S.map List.prod).sum := by
    rw [← length_all_vertices]
    omega
  have hreslen : (topological_sort_core g).2.length = g.verticesCounter := by
    rw [hres, located, List.length_map, hlen, wf.vcount]
  refine ⟨(topological_sort_core g).2, ?_, hreslen, ?_, ?_⟩
  · show (if (topological_sort_core g).2.length ≠ g.verticesCounter
        then Except.error cycle_error_message
        else Except.ok (topological_sort_core g).2) = Except.ok (topological_sort_core g).2
    rw [if_neg (by rw [hreslen]; exact fun hc => hc rfl)]
  · -- each valid located vertex appears exactly once
    intro v hv
    have hp_valid : valid_idx S (to_index S v) := to_index_valid S v hv
    have hp_mem : to_index S v ∈ em := hall _ hp_valid
    have hcnt : count_v (em.map (loc_vertex S)) (loc_vertex S (to_index S v)) =
        count_v em (to_index S v) := by
      refine count_v_map_of_inj _ _ _ ?_
      intro x hx hfx
      exact loc_vertex_inj S x _ (inv.em_valid x hx) hp_valid hfx
    rw [hres, located_eq_map, ← loc_vertex_to_index S v hv, hcnt]
    exact count_v_eq_one em _ inv.em_nodup hp_mem
  · -- every recorded edge's source precedes its destination
    intro e he
    have hE_mem : (to_index S e.1, to_index S e.2) ∈ E := by
      rw [hE]
      exact List.mem_map.mpr ⟨e, he, rfl⟩
    have h2mem : to_index S e.2 ∈ em := hall _ (to_index_valid S e.2 (hval e he).2)
    obtain ⟨h1mem, hidx⟩ := inv.order (to_index S e.1, to_index S e.2) hE_mem h2mem
    have hidx1 : idx_in (em.map (loc_vertex S)) (loc_vertex S (to_index S e.1)) =
        idx_in em (to_index S e.1) := by
      refine idx_in_map_of_inj _ _ _ ?_
      intro x hx hfx
      exact loc_vertex_inj S x _ (inv.em_valid x hx) (to_index_valid S e.1 (hval e he).1) hfx
    have hidx2 : idx_in (em.map (loc_vertex S)) (loc_vertex S (to_index S e.2)) =
        idx_in em (to_index S e.2) := by
      refine idx_in_map_of_inj _ _ _ ?_
      intro x hx hfx
      exact loc_vertex_inj S x _ (inv.em_valid x hx) (to_index_valid S e.2 (hval e he).2) hfx
    rw [hres, located_eq_map, ← loc_vertex_to_index S e.1 (hval e he).1,
      ← loc_vertex_to_index S e.2 (hval e he).2, hidx1, hidx2]
    exact hidx

/-- C1: for every dependency graph built only through `add_edge` calls after
construction whose edge relation is a DAG, `topological_sort` returns a
sequence with exactly one entry per vertex — its length is the total vertex
count and every unit occurs exactly once — and for every recorded edge the
source unit appears strictly before the destination unit. -/
theorem topological_sort_dag_spec (default_cap : Nat) (layers : List Layer)
    (es : List (Vertex × Vertex)) (hcap : 1 ≤ default_cap)
    (hval : ∀ e ∈ es, valid_vertex (layers.map layer_spatial_shape) e.1 ∧
      valid_vertex (layers.map layer_spatial_shape) e.2)
    (hacyc : ¬ has_cycle es) :
    ∃ res : List Vertex,
      (topological_sort (build_graph default_cap layers es)).1 = Except.ok res ∧
      res.length = (build_graph default_cap layers es).verticesCounter ∧
      (∀ v : Vertex, valid_vertex (layers.map layer_spatial_shape) v → count_v res v = 1) ∧
      (∀ e ∈ es, idx_in res e.1 < idx_in res e.2) :=
  sort_ok_of_acyclic default_cap layers es hcap hval hacyc

/-- C1 witness: a two-layer chain, one unit each; the sort succeeds and the
source precedes the destination. -/
theorem topological_sort_dag_spec_witness :
    ∃ res : List Vertex,
      (topological_sort (build_graph 10 [⟨[0, 1, 1], false⟩, ⟨[0, 1, 1], false⟩]
        [((0, [0]), (1, [0]))])).1 = Except.ok res ∧
      res.length = (build_graph 10 [⟨[0, 1, 1], false⟩, ⟨[0, 1, 1], false⟩]
        [((0, [0]), (1, [0]))]).verticesCounter ∧
      (∀ v : Vertex, valid_vertex ([⟨[0, 1, 1], false⟩, ⟨[0, 1, 1], false⟩].map
        layer_spatial_shape) v → count_v res v = 1) ∧
      (∀ e ∈ [(((0 : Nat), [(0 : Nat)]), ((1 : Nat), [(0 : Nat)]))],
        idx_in res e.1 < idx_in res e.2) := by
  refine topological_sort_dag_spec 10 [⟨[0, 1, 1], false⟩, ⟨[0, 1, 1], false⟩]
    [((0, [0]), (1, [0]))] (by decide) (by decide) ?_
  rintro ⟨v, hv⟩
  refine acyclic_of_rank (fun a b => (a, b) ∈ [(((0 : Nat), [(0 : Nat)]), ((1 : Nat), [(0 : Nat)]))])
    (fun v => v.1) ?_ v hv
  intro a b hab
  rw [List.mem_singleton] at hab
  have h1 : a = ((0 : Nat), [(0 : Nat)]) := congrArg Prod.fst hab
  have h2 : b = ((1 : Nat), [(0 : Nat)]) := congrArg Prod.snd hab
  rw [h1, h2]
  exact Nat.zero_lt_one

/-- C2: a graph populated through `add_edge` that contains a directed cycle
makes `topological_sort` raise the cycle error and return no order; moreover
the sort raises exactly when the number of emitted units falls short of the
total vertex count. -/
theorem topological_sort_cycle_spec (default_cap : Nat) (layers : List Layer)
    (es : List (Vertex × Vertex)) (hcap : 1 ≤ default_cap)
    (hval : ∀ e ∈ es, valid_vertex (layers.map layer_spatial_shape) e.1 ∧
      valid_vertex (layers.map layer_spatial_shape) e.2) :
    (has_cycle es → (topological_sort (build_graph default_cap layers es)).1 =
      Except.error cycle_error_message) ∧
    ((topological_sort (build_graph default_cap layers es)).1 =
        Except.error cycle_error_message ↔
      (topological_sort_core (build_graph default_cap layers es)).2.length <
        (build_graph default_cap layers es).verticesCounter) := by
  classical
  set S := layers.map layer_spatial_shape with hS
  set E := edges_index S es with hE
  set g := build_graph default_cap layers es with hg
  have wf : Wf S E g := wf_build default_cap layers es hcap
  have ev : ∀ e ∈ E, valid_idx S e.1 ∧ valid_idx S e.2 := edges_index_valid S es hval
  obtain ⟨em, inv, hres, hq0⟩ := sort_core_spec ev wf
  have hlen_le : em.length ≤ (S.map List.prod).sum := by
    have := drain_inv_length_le inv
    omega
  have hreslen : (topological_sort_core g).2.length = em.length := by
    rw [hres, located, List.length_map]
  have hVc : g.verticesCounter = (S.map List.prod).sum := wf.vcount
  have hiff : (topological_sort g).1 = Except.error cycle_error_message ↔
      (topological_sort_core g).2.length < g.verticesCounter := by
    show (if (topological_sort_core g).2.length ≠ g.verticesCounter
        then Except.error cycle_error_message
        else Except.ok (topological_sort_core g).2) = Except.error cycle_error_message ↔ _
    by_cases h : (topological_sort_core g).2.length ≠ g.verticesCounter
    · rw [if_pos h]
      simp only [true_iff]
      rw [hreslen, hVc] at h ⊢
      omega
    · rw [if_neg h]
      constructor
      · intro hc
        exact absurd hc (by simp)
      · intro hc
        push_neg at h
        omega
  refine ⟨?_, hiff⟩
  intro hcyc
  rw [hiff, hreslen, hVc]
  -- lift the located cycle to the index level
  obtain ⟨v, hv⟩ := hcyc
  have hvE : Relation.TransGen (fun a b => (a, b) ∈ E) (to_index S v) (to_index S v) := by
    refine Relation.TransGen.lift (to_index S) ?_ hv
    intro a b hab
    rw [hE]
    exact List.mem_map.mpr ⟨(a, b), hab, rfl⟩
  -- the cycle vertex is a valid unit but can never be emitted
  have hq_valid : valid_idx S (to_index S v) := by
    obtain ⟨c, hc⟩ := transgen_first_step hvE
    exact (ev _ hc).1
  have hq_nem : to_index S v ∉ em := by
    intro hmem
    obtain ⟨_, hidx⟩ := trans_gen_order inv.order _ _ hvE hmem
    exact lt_irrefl _ hidx
  have hnodup : (to_index S v :: em).Nodup := List.nodup_cons.mpr ⟨hq_nem, inv.em_nodup⟩
  have hsub : to_index S v :: em ⊆ all_vertices S := by
    intro p hp
    rcases List.mem_cons.mp hp with h | h
    · rw [h]
      exact (mem_all_vertices S _).mpr hq_valid
    · exact (mem_all_vertices S p).mpr (inv.em_valid p h)
  have := (List.subperm_of_subset hnodup hsub).length_le
  rw [List.length_cons, length_all_vertices] at this
  omega

/-- C2 witness: two single-unit layers cross-wired into a two-cycle; the sort
raises the cycle error. -/
theorem topological_sort_cycle_spec_witness :
    (topological_sort (build_graph 10 [⟨[0, 1, 1], false⟩, ⟨[0, 1, 1], false⟩]
      [((0, [0]), (1, [0])), ((1, [0]), (0, [0]))])).1 =
      Except.error cycle_error_message := by
  refine (topological_sort_cycle_spec 10 [⟨[0, 1, 1], false⟩, ⟨[0, 1, 1], false⟩]
    [((0, [0]), (1, [0])), ((1, [0]), (0, [0]))] (by decide) (by decide)).1 ?_
  refine ⟨((0 : Nat), [(0 : Nat)]), ?_⟩
  refine Relation.TransGen.head (b := ((1 : Nat), [(0 : Nat)])) ?_
    (Relation.TransGen.single ?_)
  · simp
  · simp

/-- C7: adding the same edge twice records it twice — the source's
outgoing-edge counter and the destination's incoming-edge counter each grow by
exactly two, with no deduplication — and on an otherwise acyclic graph the
in-degree bookkeeping of the drain stays correct: the sort still succeeds and
emits every unit exactly once. -/
theorem duplicate_edge_spec (default_cap : Nat) (layers : List Layer)
    (es : List (Vertex × Vertex)) (e : Vertex × Vertex) (hcap : 1 ≤ default_cap)
    (hval : ∀ e' ∈ es, valid_vertex (layers.map layer_spatial_shape) e'.1 ∧
      valid_vertex (layers.map layer_spatial_shape) e'.2)
    (hvale : valid_vertex (layers.map layer_spatial_shape) e.1 ∧
      valid_vertex (layers.map layer_spatial_shape) e.2)
    (hacyc : ¬ has_cycle (es ++ [e])) :
    (build_graph default_cap layers (es ++ [e, e])).outCount e.1.1
        (get_spatial_index ((layers.map layer_spatial_shape).getD e.1.1 []) e.1.2) =
      (build_graph default_cap layers es).outCount e.1.1
        (get_spatial_index ((layers.map layer_spatial_shape).getD e.1.1 []) e.1.2) + 2 ∧
    (build_graph default_cap layers (es ++ [e, e])).inCount e.2.1
        (get_spatial_index ((layers.map layer_spatial_shape).getD e.2.1 []) e.2.2) =
      (build_graph default_cap layers es).inCount e.2.1
        (get_spatial_index ((layers.map layer_spatial_shape).getD e.2.1 []) e.2.2) + 2 ∧
    ∃ res : List Vertex,
      (topological_sort (build_graph default_cap layers (es ++ [e, e]))).1 = Except.ok res ∧
      res.length = (build_graph default_cap layers (es ++ [e, e])).verticesCounter ∧
      (∀ v : Vertex, valid_vertex (layers.map layer_spatial_shape) v → count_v res v = 1) := by
  classical
  set S := layers.map layer_spatial_shape with hS
  have wf1 : Wf S (edges_index S es) (build_graph default_cap layers es) :=
    wf_build default_cap layers es hcap
  have wf2 : Wf S (edges_index S (es ++ [e, e]))
      (build_graph default_cap layers (es ++ [e, e])) :=
    wf_build default_cap layers (es ++ [e, e]) hcap
  have hE2 : edges_index S (es ++ [e, e]) =
      (edges_index S es ++ [(to_index S e.1, to_index S e.2)]) ++
        [(to_index S e.1, to_index S e.2)] := by
    simp [edges_index]
  have hval2 : ∀ e' ∈ es ++ [e, e], valid_vertex S e'.1 ∧ valid_vertex S e'.2 := by
    intro e' he'
    rcases List.mem_append.mp he' with h | h
    · exact hval e' h
    · rcases List.mem_cons.mp h with h | h
      · rw [h]
        exact hvale
      · rw [List.mem_singleton.mp h]
        exact hvale
  have hacyc2 : ¬ has_cycle (es ++ [e, e]) := by
    rintro ⟨v, hv⟩
    refine hacyc ⟨v, Relation.TransGen.mono ?_ hv⟩
    intro a b hab
    rcases List.mem_append.mp hab with h | h
    · exact List.mem_append.mpr (Or.inl h)
    · refine List.mem_append.mpr (Or.inr ?_)
      rcases List.mem_cons.mp h with h | h
      · rw [h]
        exact List.mem_singleton.mpr rfl
      · exact h
  refine ⟨?_, ?_, ?_⟩
  · -- outgoing counter grows by exactly two
    have h1 : (build_graph default_cap layers (es ++ [e, e])).outCount e.1.1
        (get_spatial_index (S.getD e.1.1 []) e.1.2) =
        (src_edges (edges_index S (es ++ [e, e])) (to_index S e.1)).length :=
      wf2.out_count e.1.1 (get_spatial_index (S.getD e.1.1 []) e.1.2)
    have h2 : (build_graph default_cap layers es).outCount e.1.1
        (get_spatial_index (S.getD e.1.1 []) e.1.2) =
        (src_edges (edges_index S es) (to_index S e.1)).length :=
      wf1.out_count e.1.1 (get_spatial_index (S.getD e.1.1 []) e.1.2)
    rw [h1, h2, hE2, src_edges_append_single, src_edges_append_single, if_pos rfl]
    simp
  · -- incoming counter grows by exactly two
    have h1 : (build_graph default_cap layers (es ++ [e, e])).inCount e.2.1
        (get_spatial_index (S.getD e.2.1 []) e.2.2) =
        in_degree (edges_index S (es ++ [e, e])) (to_index S e.2) :=
      wf2.in_count e.2.1 (get_spatial_index (S.getD e.2.1 []) e.2.2)
    have h2 : (build_graph default_cap layers es).inCount e.2.1
        (get_spatial_index (S.getD e.2.1 []) e.2.2) =
        in_degree (edges_index S es) (to_index S e.2) :=
      wf1.in_count e.2.1 (get_spatial_index (S.getD e.2.1 []) e.2.2)
    rw [h1, h2, hE2, in_degree_append_single, in_degree_append_single, if_pos rfl]
  · obtain ⟨res, hok, hlen, hcnt, _⟩ :=
      sort_ok_of_acyclic default_cap layers (es ++ [e, e]) hcap hval2 hacyc2
    exact ⟨res, hok, hlen, hcnt⟩

/-- C7 witness: the single edge of a two-unit chain added twice. -/
theorem duplicate_edge_spec_witness :
    (build_graph 10 [⟨[0, 1, 1], false⟩, ⟨[0, 1, 1], false⟩]
        ([] ++ [((0, [0]), (1, [0])), ((0, [0]), (1, [0]))])).outCount 0
        (get_spatial_index (([⟨[0, 1, 1], false⟩, ⟨[0, 1, 1], false⟩].map
          layer_spatial_shape).getD 0 []) [0]) =
      (build_graph 10 [⟨[0, 1, 1], false⟩, ⟨[0, 1, 1], false⟩] []).outCount 0
        (get_spatial_index (([⟨[0, 1, 1], false⟩, ⟨[0, 1, 1], false⟩].map
          layer_spatial_shape).getD 0 []) [0]) + 2 ∧
    ∃ res : List Vertex,
      (topological_sort (build_graph 10 [⟨[0, 1, 1], false⟩, ⟨[0, 1, 1], false⟩]
        ([] ++ [((0, [0]), (1, [0])), ((0, [0]), (1, [0]))]))).1 = Except.ok res ∧
      res.length = (build_graph 10 [⟨[0, 1, 1], false⟩, ⟨[0, 1, 1], false⟩]
        ([] ++ [((0, [0]), (1, [0])), ((0, [0]), (1, [0]))])).verticesCounter ∧
      (∀ v : Vertex, valid_vertex ([⟨[0, 1, 1], false⟩, ⟨[0, 1, 1], false⟩].map
        layer_spatial_shape) v → count_v res v = 1) := by
  have h := duplicate_edge_spec 10 [⟨[0, 1, 1], false⟩, ⟨[0, 1, 1], false⟩] []
    ((0, [0]), (1, [0])) (by decide) (by decide) (by decide) ?_
  · exact ⟨h.1, h.2.2⟩
  · rintro ⟨v, hv⟩
    refine acyclic_of_rank
      (fun a b => (a, b) ∈ ([] ++ [(((0 : Nat), [(0 : Nat)]), ((1 : Nat), [(0 : Nat)]))]))
      (fun v => v.1) ?_ v hv
    intro a b hab
    simp only [List.nil_append, List.mem_singleton] at hab
    have h1 : a = ((0 : Nat), [(0 : Nat)]) := congrArg Prod.fst hab
    have h2 : b = ((1 : Nat), [(0 : Nat)]) := congrArg Prod.snd hab
    rw [h1, h2]
    exact Nat.zero_lt_one

/-- C4: on a populated acyclic graph whose edge set is not modified between
calls, two consecutive invocations of `topological_sort` return the same
output sequence: each call resets the work-status arrays from the stored
incoming-edge counts and clears the stack, so the result is a function of the
immutable core (shapes, tables, counters) alone, which the sort never
changes. -/
theorem topological_sort_deterministic_spec (default_cap : Nat) (layers : List Layer)
    (es : List (Vertex × Vertex)) (hcap : 1 ≤ default_cap)
    (hval : ∀ e' ∈ es, valid_vertex (layers.map layer_spatial_shape) e'.1 ∧
      valid_vertex (layers.map layer_spatial_shape) e'.2)
    (hacyc : ¬ has_cycle es) :
    ∃ res : List Vertex,
      (topological_sort (build_graph default_cap layers es)).1 = Except.ok res ∧
      (topological_sort (topological_sort (build_graph default_cap layers es)).2).1 =
        Except.ok res := by
  obtain ⟨res, hok, _, _, _⟩ := sort_ok_of_acyclic default_cap layers es hcap hval hacyc
  refine ⟨res, hok, ?_⟩
  have hcore : EqCore (topological_sort (build_graph default_cap layers es)).2
      (build_graph default_cap layers es) := eqcore_sort_core _
  rw [sort_results_congr hcore]
  exact hok

/-- C4 witness: two consecutive sorts of a two-unit chain. -/
theorem topological_sort_deterministic_spec_witness :
    ∃ res : List Vertex,
      (topological_sort (build_graph 10 [⟨[0, 1, 1], false⟩, ⟨[0, 1, 1], false⟩]
        [((0, [0]), (1, [0]))])).1 = Except.ok res ∧
      (topological_sort (topological_sort (build_graph 10
        [⟨[0, 1, 1], false⟩, ⟨[0, 1, 1], false⟩] [((0, [0]), (1, [0]))])).2).1 =
        Except.ok res := by
  refine topological_sort_deterministic_spec 10 [⟨[0, 1, 1], false⟩, ⟨[0, 1, 1], false⟩]
    [((0, [0]), (1, [0]))] (by decide) (by decide) ?_
  rintro ⟨v, hv⟩
  refine acyclic_of_rank
    (fun a b => (a, b) ∈ [(((0 : Nat), [(0 : Nat)]), ((1 : Nat), [(0 : Nat)]))])
    (fun v => v.1) ?_ v hv
  intro a b hab
  simp only [List.mem_singleton] at hab
  have h1 : a = ((0 : Nat), [(0 : Nat)]) := congrArg Prod.fst hab
  have h2 : b = ((1 : Nat), [(0 : Nat)]) := congrArg Prod.snd hab
  rw [h1, h2]
  exact Nat.zero_lt_one

/-- C9: during a single sort on a graph populated through `add_edge`, every
unit enters the work stack at most once.  At every point of the drain (any
number `k` of completed loop iterations) the units pushed so far — the emitted
ones plus the live stack segment — are pairwise distinct, and their count stays
within `verticesCounter`: the two stack arrays of that length are only ever
written below their extent, so the sort needs no further allocation. -/
theorem stack_push_at_most_once_spec (default_cap : Nat) (layers : List Layer)
    (es : List (Vertex × Vertex)) (hcap : 1 ≤ default_cap)
    (hval : ∀ e' ∈ es, valid_vertex (layers.map layer_spatial_shape) e'.1 ∧
      valid_vertex (layers.map layer_spatial_shape) e'.2) :
    ∀ k : Nat, ∃ em : List IdxVertex,
      (drain_loop k (add_vertices_with_zero_incoming_degree_to_queue
        (reset_dfs_status (build_graph default_cap layers es))) []).2 =
        located (layers.map layer_spatial_shape) em ∧
      (em ++ queue_view (drain_loop k (add_vertices_with_zero_incoming_degree_to_queue
        (reset_dfs_status (build_graph default_cap layers es))) []).1).Nodup ∧
      em.length + (drain_loop k (add_vertices_with_zero_incoming_degree_to_queue
        (reset_dfs_status (build_graph default_cap layers es))) []).1.queueLen ≤
        (build_graph default_cap layers es).verticesCounter := by
  intro k
  set S := layers.map layer_spatial_shape with hS
  set E := edges_index S es with hE
  set g := build_graph default_cap layers es with hg
  have wf : Wf S E g := wf_build default_cap layers es hcap
  have ev : ∀ e ∈ E, valid_idx S e.1 ∧ valid_idx S e.2 := edges_index_valid S es hval
  have inv0 := initial_drain_inv wf
  obtain ⟨em, inv, hres, _⟩ := drain_loop_inv ev k
    (add_vertices_with_zero_incoming_degree_to_queue (reset_dfs_status g)) [] inv0
  refine ⟨em, hres, ?_, ?_⟩
  · rw [List.nodup_append]
    exact ⟨inv.em_nodup, inv.q_nodup, fun p hp hq => inv.q_fresh p hq hp⟩
  · rw [wf.vcount]
    exact drain_inv_length_le inv

/-- C9 witness: one drain iteration of a two-unit chain. -/
theorem stack_push_at_most_once_spec_witness :
    ∃ em : List IdxVertex,
      (drain_loop 1 (add_vertices_with_zero_incoming_degree_to_queue
        (reset_dfs_status (build_graph 10 [⟨[0, 1, 1], false⟩, ⟨[0, 1, 1], false⟩]
          [((0, [0]), (1, [0]))]))) []).2 =
        located ([⟨[0, 1, 1], false⟩, ⟨[0, 1, 1], false⟩].map layer_spatial_shape) em ∧
      (em ++ queue_view (drain_loop 1 (add_vertices_with_zero_incoming_degree_to_queue
        (reset_dfs_status (build_graph 10 [⟨[0, 1, 1], false⟩, ⟨[0, 1, 1], false⟩]
          [((0, [0]), (1, [0]))]))) []).1).Nodup ∧
      em.length + (drain_loop 1 (add_vertices_with_zero_incoming_degree_to_queue
        (reset_dfs_status (build_graph 10 [⟨[0, 1, 1], false⟩, ⟨[0, 1, 1], false⟩]
          [((0, [0]), (1, [0]))]))) []).1.queueLen ≤
        (build_graph 10 [⟨[0, 1, 1], false⟩, ⟨[0, 1, 1], false⟩]
          [((0, [0]), (1, [0]))]).verticesCounter :=
  stack_push_at_most_once_spec 10 [⟨[0, 1, 1], false⟩, ⟨[0, 1, 1], false⟩]
    [((0, [0]), (1, [0]))] (by decide) (by decide) 1

/-- C3: for a spatial shape of rank 1, 2 or 3, `_get_spatial_index` and
`_spatial_index_to_location` are mutually inverse: encoding any in-shape
location and decoding the result returns the location, the encoded index lies
in `[0, S)` where `S` is the product of the shape, and decoding any index in
`[0, S)` and re-encoding returns the index, with the decoded location lying
inside the shape — a row-major mixed-radix bijection. -/
theorem spatial_index_roundtrip_spec (shape loc : List Nat)
    (hrank : 1 ≤ shape.length ∧ shape.length ≤ 3)
    (hloc : List.Forall₂ (· < ·) loc shape) :
    spatial_index_to_location shape (get_spatial_index shape loc) = loc ∧
    get_spatial_index shape loc < shape.prod ∧
    (∀ i : Nat, i < shape.prod →
      get_spatial_index shape (spatial_index_to_location shape i) = i ∧
      List.Forall₂ (· < ·) (spatial_index_to_location shape i) shape) :=
  ⟨decode_encode shape loc hloc, encode_lt shape loc hloc,
    fun i hi => ⟨encode_decode shape i hi, decode_forall₂ shape i hi⟩⟩

/-- C3 witness: the rank-2 shape `[2, 3]` at location `[1, 2]`. -/
theorem spatial_index_roundtrip_spec_witness :
    (1 ≤ ([2, 3] : List Nat).length ∧ ([2, 3] : List Nat).length ≤ 3) ∧
    List.Forall₂ (· < ·) [1, 2] ([2, 3] : List Nat) ∧
    (spatial_index_to_location [2, 3] (get_spatial_index [2, 3] [1, 2]) = [1, 2] ∧
     get_spatial_index [2, 3] [1, 2] < ([2, 3] : List Nat).prod ∧
     (∀ i : Nat, i < ([2, 3] : List Nat).prod →
       get_spatial_index [2, 3] (spatial_index_to_location [2, 3] i) = i ∧
       List.Forall₂ (· < ·) (spatial_index_to_location [2, 3] i) [2, 3])) :=
  ⟨by decide, by decide,
    spatial_index_roundtrip_spec [2, 3] [1, 2] (by decide) (by decide)⟩

end Pyket
